import Mathlib

/-!
Verification development for the memotic webhook automation engine.

The definitions below are a shallow embedding of the core of the
repository: the CLI command extraction/safety/execution pipeline
(src/memotic/cli/exec.py, src/memotic/cli/models.py), the result
chunking (src/memotic/cli/handler.py), and the webhook event
normalization and matching engine (src/memotic/base.py).

Python machine-level details are modelled as follows: strings are Lean
`String`s, Python dicts are association lists (`JValue.obj`) with
first-occurrence lookup, Python exceptions raised by an external call
are modelled with `Option`/`Except`, and the external tokenizer
`shlex.split` is an uninterpreted parameter `tok` (returning `none`
models a `ValueError`).
-/

set_option maxHeartbeats 1000000

/-! ## Python string primitives -/

/-- Python whitespace test for `str.strip`, `str.split` and `\s`
(ASCII range: space, tab, newline, carriage return, vertical tab,
form feed). -/
def pyIsSpace (c : Char) : Bool :=
  c = ' ' || c = '\t' || c = '\n' || c = '\r' || c = '\x0b' || c = '\x0c'

/-- Python `str.lstrip()` on a character list. -/
def pyLstripList (l : List Char) : List Char := l.dropWhile pyIsSpace

/-- Python `str.rstrip()` on a character list. -/
def pyRstripList (l : List Char) : List Char :=
  (l.reverse.dropWhile pyIsSpace).reverse

/-- Python `str.strip()`. -/
def pyStrip (s : String) : String :=
  ⟨pyRstripList (pyLstripList s.data)⟩

/-- Python `str.rstrip()`. -/
def pyRstrip (s : String) : String := ⟨pyRstripList s.data⟩

/-- Python `str.lstrip("#")`: drop all leading hash characters. -/
def pyLstripHash (s : String) : String := ⟨s.data.dropWhile (· = '#')⟩

/-- Python `sub in s` substring test on character lists. -/
def listIsInfix (sub s : List Char) : Bool :=
  s.tails.any (fun t => sub.isPrefixOf t)

/-- Python `sub in s` substring test. -/
def pyContainsSub (s sub : String) : Bool := listIsInfix sub.data s.data

/-- Python `str.lower()` (ASCII case mapping; the modelled inputs are
ASCII). -/
def pyToLower (s : String) : String := ⟨s.data.map Char.toLower⟩

/-- Python `str.startswith(pre)`. -/
def pyStartsWith (s pre : String) : Bool := pre.data.isPrefixOf s.data

/-- Python `value.replace("Z", "+00:00")` as used by `parse_dt`
(single-character pattern, every occurrence replaced). -/
def pyReplaceZ : List Char → List Char
  | [] => []
  | c :: rest =>
    if c = 'Z' then '+' :: '0' :: '0' :: ':' :: '0' :: '0' :: pyReplaceZ rest
    else c :: pyReplaceZ rest

/-- Case-insensitive substring test, `sub.lower() in s.lower()`. -/
def pyContainsCI (s sub : String) : Bool :=
  pyContainsSub (pyToLower s) (pyToLower sub)

/-- Python `str.split()` with no argument: split on whitespace runs,
discarding empty pieces. -/
def pySplitWs (s : String) : List String :=
  ((s.data.splitOnP pyIsSpace).filter (· ≠ [])).map (fun l => ⟨l⟩)


/-! ## CLI command models (src/memotic/cli/models.py)

`CliCommand` instances are produced by the recognizer chain
`COMMAND_HANDLERS = [EchoCommand, GitCommand, GenericCliCommand]`; each
class matches by `command.strip().startswith(prefix)` and the generic
class matches everything. -/

/-- Which concrete `CliCommand` subclass handled a command. -/
inductive CliKind where
  | echo
  | git
  | generic
deriving DecidableEq, Repr

/-- Embedded `CliCommand` record: `raw_command`, `allow_fail`, the
handling class, parsed `args` and the key set of parsed `flags`
(flag values are never consulted by any safety check in the source,
so only the keys are kept). -/
structure CliCommandM where
  raw_command : String
  allow_fail : Bool
  kind : CliKind
  args : List String
  flagKeys : List String
deriving DecidableEq, Repr

/-- `CliCommand._parse_flags`, fuel-indexed so the recursion is
structural (and so kernel-reducible): every loop iteration of the
source advances the index by at least one, so fuel `length + 1` is
never exhausted.  `--k=v` yields key `k`; `--k` yields key `k` and
consumes a following non-dash value; `-abc` yields one
single-character key per character. -/
def parseFlagKeysGo : Nat → List String → List String
  | _, [] => []
  | 0, _ :: _ => []
  | fuel + 1, a :: rest =>
    if pyStartsWith a "--" then
      let body : String := ⟨a.data.drop 2⟩
      if a.data.contains '=' then
        (⟨body.data.takeWhile (· ≠ '=')⟩ : String) :: parseFlagKeysGo fuel rest
      else
        match rest with
        | b :: rest2 =>
          if ¬ pyStartsWith b "-" then body :: parseFlagKeysGo fuel rest2
          else body :: parseFlagKeysGo fuel (b :: rest2)
        | [] => [body]
    else if pyStartsWith a "-" ∧ a.length > 1 then
      (a.data.drop 1).map (fun c => (⟨[c]⟩ : String)) ++ parseFlagKeysGo fuel rest
    else parseFlagKeysGo fuel rest

/-- `CliCommand._parse_flags`: collect the flag keys. -/
def parseFlagKeys (args : List String) : List String :=
  parseFlagKeysGo (args.length + 1) args

/-- `CliCommand.parse_args`: tokenize with `shlex.split` (the
uninterpreted `tok`; `none` models a `ValueError`), falling back to a
raw whitespace split; `args` is everything after the command word and
flags come from `args`.  When the token list is empty both stay at
their defaults. -/
def parsedArgs (tok : String → Option (List String)) (raw : String) :
    List String × List String :=
  match tok raw with
  | some parts =>
    match parts with
    | [] => ([], [])
    | _ :: tl => (tl, parseFlagKeys tl)
  | none =>
    match pySplitWs raw with
    | [] => ([], [])
    | _ :: tl => (tl, [])

/-- First recognizer of `COMMAND_HANDLERS` whose `matches` accepts the
command: `EchoCommand` (prefix `"echo"`), then `GitCommand`
(prefix `"git"`), then `GenericCliCommand` (accepts anything). -/
def handlerFor (raw : String) : CliKind :=
  if pyStartsWith (pyStrip raw) "echo" then .echo
  else if pyStartsWith (pyStrip raw) "git" then .git
  else .generic

/-- `parse_cli_command`: dispatch to the first matching handler and
build the command record (model construction never raises, mirroring
the `try`/`except` fallthrough that never fires in the source). -/
def parseCliCommand (tok : String → Option (List String))
    (raw : String) (allow_fail : Bool) : CliCommandM :=
  let (args, flagKeys) := parsedArgs tok raw
  ⟨raw, allow_fail, handlerFor raw, args, flagKeys⟩

/-! ### The dangerous-pattern deny-list of `GenericCliCommand`

Each `DANGEROUS_PATTERNS` regex is embedded as an executable matcher
over the lowercased command, with `re.search` semantics (match may
start anywhere; `.` does not cross a newline). -/

/-- Match the literal `lit` at the head, returning the rest. -/
def dropLit (lit : List Char) (s : List Char) : Option (List Char) :=
  if lit.isPrefixOf s then some (s.drop lit.length) else none

/-- Match `\s+` at the head (greedy; every continuation used after it
in the deny-list starts with a non-whitespace character). -/
def dropWsPlus (s : List Char) : Option (List Char) :=
  match s with
  | c :: rest => if pyIsSpace c then some (rest.dropWhile pyIsSpace) else none
  | [] => none

/-- Anchored match of `rm\s+-rf\s*/` at the head. -/
def rmRfAt (s : List Char) : Bool :=
  (do
    let s ← dropLit "rm".data s
    let s ← dropWsPlus s
    let s ← dropLit "-rf".data s
    let s := s.dropWhile pyIsSpace
    dropLit "/".data s).isSome

/-- Anchored match of `format\s+[a-z]:` at the head. -/
def formatDriveAt (s : List Char) : Bool :=
  (do
    let s ← dropLit "format".data s
    let s ← dropWsPlus s
    match s with
    | c :: rest =>
      if 'a' ≤ c ∧ c ≤ 'z' then dropLit ":".data rest else none
    | [] => none).isSome

/-- Anchored match of the fork-bomb pattern `:\(\)\{.*\|.*&` at the
head: the literal `:(){`, then a `|` and later a `&` on the same line
(`.` does not match a newline). -/
def forkBombAt (s : List Char) : Bool :=
  match dropLit ":()\x7b".data s with
  | some rest =>
    let line := rest.takeWhile (· ≠ '\n')
    let afterBar := line.dropWhile (· ≠ '|')
    match afterBar with
    | _ :: tl => tl.contains '&'
    | [] => false
  | none => false

/-- Anchored match of `dd\s+if=/dev/zero` at the head. -/
def ddZeroAt (s : List Char) : Bool :=
  (do
    let s ← dropLit "dd".data s
    let s ← dropWsPlus s
    dropLit "if=/dev/zero".data s).isSome

/-- Anchored match of `chmod\s+777` at the head. -/
def chmod777At (s : List Char) : Bool :=
  (do
    let s ← dropLit "chmod".data s
    let s ← dropWsPlus s
    dropLit "777".data s).isSome

/-- Anchored match of `sudo\s+` at the head. -/
def sudoAt (s : List Char) : Bool :=
  (do
    let s ← dropLit "sudo".data s
    dropWsPlus s).isSome

/-- Anchored match of `su\s+` at the head. -/
def suAt (s : List Char) : Bool :=
  (do
    let s ← dropLit "su".data s
    dropWsPlus s).isSome

/-- `re.search` of one anchored matcher: try every suffix. -/
def searchWith (m : List Char → Bool) (s : String) : Bool :=
  s.data.tails.any m

/-- `GenericCliCommand.is_safe` is the negation of this:
`any(re.search(p, cmd_lower) for p in DANGEROUS_PATTERNS)` on the
lowercased raw command. -/
def matchesDangerous (raw : String) : Bool :=
  let lower := pyToLower raw
  searchWith rmRfAt lower || searchWith formatDriveAt lower ||
  searchWith forkBombAt lower || searchWith ddZeroAt lower ||
  searchWith chmod777At lower || searchWith sudoAt lower ||
  searchWith suAt lower

/-- `GitCommand.is_safe`: unsafe when the subcommand (first arg) is in
the dangerous list or a `--force`/`-f` flag key was recorded. -/
def gitIsSafe (c : CliCommandM) : Bool :=
  let sub := c.args.head?
  if sub = some "rm" ∨ sub = some "clean" ∨ sub = some "reset --hard" then
    false
  else if c.flagKeys.contains "--force" ∨ c.flagKeys.contains "-f" then
    false
  else true

/-- `CliCommand.is_safe` dispatched on the handling class:
`EchoCommand` always safe, `GitCommand` per `gitIsSafe`,
`GenericCliCommand` rejects the deny-list. -/
def cliIsSafe (c : CliCommandM) : Bool :=
  match c.kind with
  | .echo => true
  | .git => gitIsSafe c
  | .generic => ¬ matchesDangerous c.raw_command

/-- `get_safe_commands`: parse each `(raw, allow_fail)` pair and keep
only the commands whose `is_safe()` holds (blocked commands are only
logged as a warning). -/
def getSafeCommands (tok : String → Option (List String))
    (cmds : List (String × Bool)) : List CliCommandM :=
  match cmds with
  | [] => []
  | (raw, af) :: rest =>
    let c := parseCliCommand tok raw af
    if cliIsSafe c then c :: getSafeCommands tok rest
    else getSafeCommands tok rest

/-! ## Sandboxed executor (src/memotic/cli/exec.py, `run_cli_lines`) -/

/-- Outcome of `sandbox.execute_shell(cmd)`: a normal result or a
raised exception with its text. -/
inductive ExecOutcome where
  | ok (exitCode : Int) (stdout stderr : String) (time : Option Nat)
  | exn (msg : String)
deriving DecidableEq, Repr

/-- One yielded tuple `(cmd, exit_code, stdout, stderr, execution_time)`. -/
structure CommandResult where
  cmd : String
  exitCode : Int
  stdout : String
  stderr : String
  time : Option Nat
deriving DecidableEq, Repr

/-- The command loop of `run_cli_lines`: execute each command via the
sandbox (`ex` gives `execute_shell`'s behaviour per command string),
yield its result, and `break` at the first hard failure — a nonzero
exit without `allow_fail`, or an exception without `allow_fail`
(the exception path yields exit code `-1`, empty stdout and the
exception text as stderr). -/
def runCliLoop (ex : String → ExecOutcome) : List CliCommandM → List CommandResult
  | [] => []
  | c :: rest =>
    match ex c.raw_command with
    | .ok code out err t =>
      let r : CommandResult := ⟨c.raw_command, code, out, err, t⟩
      if code ≠ 0 ∧ c.allow_fail = false then [r]
      else r :: runCliLoop ex rest
    | .exn msg =>
      let r : CommandResult := ⟨c.raw_command, -1, "", msg, none⟩
      if c.allow_fail = false then [r]
      else r :: runCliLoop ex rest

/-- `run_cli_lines` after extraction: an empty command list yields
nothing; otherwise `create_sandbox` either succeeds (run the loop) or
raises with text `e`, in which case a single synthetic result
`(first_cmd, -1, "", "Container setup failed: " ++ e, None)` is
yielded and no command runs.  `get_sanitized_command()` returns
`raw_command` for every handler class in the source. -/
def runCliCommands (sandbox : Except String (String → ExecOutcome))
    (commands : List CliCommandM) : List CommandResult :=
  match commands with
  | [] => []
  | c :: _ =>
    match sandbox with
    | .ok ex => runCliLoop ex commands
    | .error e =>
      [⟨c.raw_command, -1, "", "Container setup failed: " ++ e, none⟩]

/-- The per-command result record the loop produces, independent of
the halting decision. -/
def resultOf (ex : String → ExecOutcome) (c : CliCommandM) : CommandResult :=
  match ex c.raw_command with
  | .ok code out err t => ⟨c.raw_command, code, out, err, t⟩
  | .exn msg => ⟨c.raw_command, -1, "", msg, none⟩

/-- A command is a hard failure when it stops the sequence: nonzero
exit (or an exception) while `allow_fail` is false. -/
def hardFails (ex : String → ExecOutcome) (c : CliCommandM) : Bool :=
  match ex c.raw_command with
  | .ok code _ _ _ => code ≠ 0 ∧ c.allow_fail = false
  | .exn _ => c.allow_fail = false

/-! ## Result chunking (src/memotic/cli/handler.py, `_summarize_results`) -/

/-- Join rendered blocks with the `"\n"` separator the source inserts
between buffered pieces. -/
def joinNl : List String → String
  | [] => ""
  | [p] => p
  | p :: q :: rest => p ++ "\n" ++ joinNl (q :: rest)

/-- The loop of `_summarize_results`: `combined` holds the flushed
chunks and `buf` the current buffer.  A piece that would push the
buffer past `max_chars` (counting the joining newline) flushes the
buffer first (`rstrip`ped); the piece is then appended to the buffer,
with a `"\n"` separator unless the buffer is empty.  The trailing
buffer is flushed at the end. -/
def summarizeGo (maxChars : Nat) (combined : List String) (buf : String) :
    List String → List String
  | [] => if buf ≠ "" then combined ++ [pyRstrip buf] else combined
  | p :: rest =>
    if buf.length + p.length + 1 > maxChars ∧ buf ≠ "" then
      summarizeGo maxChars (combined ++ [pyRstrip buf]) p rest
    else
      summarizeGo maxChars combined
        (if buf = "" then p else buf ++ "\n" ++ p) rest

/-- `_summarize_results(chunks)`: empty input returns no chunks,
otherwise run the packing loop with an empty buffer. -/
def summarizeResults (maxChars : Nat) (chunks : List String) : List String :=
  match chunks with
  | [] => []
  | _ => summarizeGo maxChars [] "" chunks

/-- Greedy grouping of the blocks into consecutive runs, mirroring the
flush decisions of `summarizeGo` at the level of block lists. -/
def groupsGo (maxChars : Nat) (groups : List (List String))
    (cur : List String) : List String → List (List String)
  | [] => if cur ≠ [] then groups ++ [cur] else groups
  | p :: rest =>
    if (joinNl cur).length + p.length + 1 > maxChars ∧ cur ≠ [] then
      groupsGo maxChars (groups ++ [cur]) [p] rest
    else
      groupsGo maxChars groups (cur ++ [p]) rest

/-- The consecutive runs of blocks the packing loop combines into each
chunk. -/
def chunkGroups (maxChars : Nat) (chunks : List String) : List (List String) :=
  groupsGo maxChars [] [] chunks

/-! ## Python datetimes and `parse_dt` (src/memotic/base.py)

A Python `datetime` is modelled by the epoch second of its wall-clock
reading (interpreting the wall clock in UTC) plus its `tzinfo`: `none`
for a naive datetime, `some off` for an aware one with a UTC offset of
`off` seconds.  `datetime.fromtimestamp` depends on the host's local
timezone, carried as the explicit parameter `tzOff` (seconds east of
UTC); sub-second precision is not modelled (the coercion claims only
concern whole-second inputs). -/

structure PyDateTime where
  wall : Int
  tz : Option Int
deriving DecidableEq, Repr

/-- Python `==` on datetimes: naive and aware values never compare
equal; two aware values compare by instant; two naive values by wall
clock. -/
def pyDtEq (a b : PyDateTime) : Bool :=
  match a.tz, b.tz with
  | none, none => a.wall = b.wall
  | some oa, some ob => a.wall - oa = b.wall - ob
  | _, _ => false

/-- Python `>` on datetimes: comparing naive with aware raises
`TypeError`, modelled as `none`. -/
def pyDtGt (a b : PyDateTime) : Option Bool :=
  match a.tz, b.tz with
  | none, none => some (b.wall < a.wall)
  | some oa, some ob => some (b.wall - ob < a.wall - oa)
  | _, _ => none

/-- `datetime.fromtimestamp(v)`: naive datetime at the local wall
clock of instant `v` (host timezone offset `tzOff`). -/
def pyFromTimestamp (tzOff : Int) (v : Int) : PyDateTime := ⟨v + tzOff, none⟩

/-- Leap-year test (proleptic Gregorian). -/
def isLeapYear (y : Int) : Bool :=
  (y % 4 = 0 ∧ y % 100 ≠ 0) ∨ y % 400 = 0

/-- Days in a month, used to validate ISO dates like `fromisoformat`
does. -/
def daysInMonth (y m : Int) : Int :=
  if m = 1 ∨ m = 3 ∨ m = 5 ∨ m = 7 ∨ m = 8 ∨ m = 10 ∨ m = 12 then 31
  else if m = 4 ∨ m = 6 ∨ m = 9 ∨ m = 11 then 30
  else if isLeapYear y then 29 else 28

/-- Days from the epoch 1970-01-01 to the civil date `y-m-d`
(proleptic Gregorian). -/
def daysFromCivil (y m d : Int) : Int :=
  let y' := if m ≤ 2 then y - 1 else y
  let era := Int.fdiv y' 400
  let yoe := y' - era * 400
  let mp := if m > 2 then m - 3 else m + 9
  let doy := Int.fdiv (153 * mp + 2) 5 + d - 1
  let doe := yoe * 365 + Int.fdiv yoe 4 - Int.fdiv yoe 100 + doy
  era * 146097 + doe - 719468

/-- Parse a fixed-width decimal number from the head of a character
list. -/
def parseDigits (n : Nat) (s : List Char) : Option (Int × List Char) :=
  let ds := s.take n
  if ds.length = n ∧ ds.all (fun c => '0' ≤ c ∧ c ≤ '9') then
    some (ds.foldl (fun acc c => acc * 10 + (Int.ofNat c.toNat - 48)) 0,
          s.drop n)
  else none

/-- Parse an `HH:MM` or `HH:MM:SS` time-of-day. -/
def parseHms (s : List Char) : Option (Int × List Char) :=
  match parseDigits 2 s with
  | some (h, s) =>
    match dropLit ":".data s with
    | some s =>
      match parseDigits 2 s with
      | some (mi, s) =>
        if h ≤ 23 ∧ mi ≤ 59 then
          match dropLit ":".data s with
          | some s2 =>
            match parseDigits 2 s2 with
            | some (sec, s3) =>
              if sec ≤ 59 then some (h * 3600 + mi * 60 + sec, s3) else none
            | none => none
          | none => some (h * 3600 + mi * 60, s)
        else none
      | none => none
    | none => none
  | none => none

/-- Modelled subset of `datetime.fromisoformat`: a `YYYY-MM-DD` date,
optionally followed by `T` or a space and an `HH:MM[:SS]` time,
optionally followed by a `+HH:MM`/`-HH:MM` UTC offset.  Fractional
seconds and the other extended forms the stdlib accepts are treated as
unparsable here; the claims under verification only exercise this
subset. -/
def pyFromIso (str : String) : Option PyDateTime :=
  let s := str.data
  match parseDigits 4 s with
  | none => none
  | some (y, s) =>
  match dropLit "-".data s with
  | none => none
  | some s =>
  match parseDigits 2 s with
  | none => none
  | some (m, s) =>
  match dropLit "-".data s with
  | none => none
  | some s =>
  match parseDigits 2 s with
  | none => none
  | some (d, s) =>
  if ¬ (1 ≤ m ∧ m ≤ 12 ∧ 1 ≤ d ∧ d ≤ daysInMonth y m) then none
  else
    let base := daysFromCivil y m d * 86400
    match s with
    | [] => some ⟨base, none⟩
    | sep :: s =>
      if sep ≠ 'T' ∧ sep ≠ ' ' then none
      else
        match parseHms s with
        | none => none
        | some (tod, s) =>
          match s with
          | [] => some ⟨base + tod, none⟩
          | sign :: s =>
            if sign ≠ '+' ∧ sign ≠ '-' then none
            else
              match parseHms s with
              | none => none
              | some (off, rest) =>
                if rest = [] then
                  some ⟨base + tod, some (if sign = '+' then off else -off)⟩
                else none

/-- `int(x)` as used by `parse_dt` on the `"seconds"` member: integers
pass through, booleans are integers, strings of an optionally signed
decimal (after stripping whitespace) convert, everything else raises
(modelled as `none`). -/
def pyInt : Option Int → Option Int := id

/-! ## JSON-like payload values

Python dicts are association lists with first-occurrence lookup;
`JValue.dt` represents a Python `datetime` object stored into the dict
by the coercion validator. -/

inductive JValue where
  | null
  | bool (b : Bool)
  | num (n : Int)
  | str (s : String)
  | arr (items : List JValue)
  | obj (fields : List (String × JValue))
  | dt (d : PyDateTime)

/-- Dict lookup (`d.get(k)` / `d[k]`), first occurrence. -/
def jGet (fields : List (String × JValue)) (k : String) : Option JValue :=
  match fields with
  | [] => none
  | (k', v) :: rest => if k' = k then some v else jGet rest k

/-- Dict update `d[k] = v`: replace the first binding of `k` in place,
appending a new binding when `k` is absent. -/
def jSet (fields : List (String × JValue)) (k : String) (v : JValue) :
    List (String × JValue) :=
  match fields with
  | [] => [(k, v)]
  | (k', v') :: rest =>
    if k' = k then (k', v) :: rest else (k', v') :: jSet rest k v

/-- Python truthiness of a payload value. -/
def jTruthy : JValue → Bool
  | .null => false
  | .bool b => b
  | .num n => n ≠ 0
  | .str s => s ≠ ""
  | .arr items => !items.isEmpty
  | .obj fields => !fields.isEmpty
  | .dt _ => true

/-- `int(x)` conversion for the `{"seconds": x}` branch of `parse_dt`:
ints and bools convert, decimal strings (optionally signed, after
stripping whitespace) convert, everything else raises. -/
def jToInt : JValue → Option Int
  | .num n => some n
  | .bool b => some (if b then 1 else 0)
  | .str s =>
    let t := (pyStrip s).data
    let (sign, ds) :=
      match t with
      | '-' :: rest => ((-1 : Int), rest)
      | '+' :: rest => ((1 : Int), rest)
      | _ => ((1 : Int), t)
    if ds ≠ [] ∧ ds.all (fun c => '0' ≤ c ∧ c ≤ '9') then
      some (sign * ds.foldl (fun acc c => acc * 10 + (Int.ofNat c.toNat - 48)) 0)
    else none
  | _ => none

/-- `parse_dt` from `Memo._coerce_webhook_formats`: `None` stays
absent; datetimes pass through; `{"seconds": n}` and numeric epoch
values go through `datetime.fromtimestamp` (host offset `tzOff`);
strings have `"Z"` replaced by `"+00:00"` and go through
`fromisoformat`; every failure is caught and becomes `none`. -/
def parseDt (tzOff : Int) : JValue → Option PyDateTime
  | .null => none
  | .dt d => some d
  | .obj fields =>
    if (jGet fields "seconds").isSome then
      match (jGet fields "seconds").bind jToInt with
      | some n => some (pyFromTimestamp tzOff n)
      | none => none
    else none
  | .num n => some (pyFromTimestamp tzOff n)
  | .bool b => some (pyFromTimestamp tzOff (if b then 1 else 0))
  | .str s => pyFromIso ⟨pyReplaceZ s.data⟩
  | .arr _ => none

/-! ## Node-tree coercion and tag extraction (src/memotic/base.py) -/

/-- The `node_type_mapping` table of `_coerce_webhook_formats`. -/
def nodeTypeName (n : Int) : Option String :=
  if n = 1 then some "LINE_BREAK"
  else if n = 2 then some "PARAGRAPH"
  else if n = 3 then some "CODE_BLOCK"
  else if n = 4 then some "HEADING"
  else if n = 5 then some "HORIZONTAL_RULE"
  else if n = 6 then some "BLOCKQUOTE"
  else if n = 7 then some "LIST"
  else if n = 8 then some "ORDERED_LIST_ITEM"
  else if n = 9 then some "UNORDERED_LIST_ITEM"
  else if n = 10 then some "TASK_LIST_ITEM"
  else if n = 11 then some "MATH_BLOCK"
  else if n = 12 then some "TABLE"
  else if n = 13 then some "EMBEDDED_CONTENT"
  else if n = 51 then some "TEXT"
  else if n = 52 then some "BOLD"
  else if n = 53 then some "ITALIC"
  else if n = 54 then some "BOLD_ITALIC"
  else if n = 55 then some "CODE"
  else if n = 56 then some "IMAGE"
  else if n = 57 then some "LINK"
  else if n = 58 then some "AUTO_LINK"
  else if n = 59 then some "TAG"
  else if n = 60 then some "STRIKETHROUGH"
  else if n = 61 then some "ESCAPING_CHARACTER"
  else if n = 62 then some "MATH"
  else if n = 63 then some "HIGHLIGHT"
  else if n = 64 then some "SUBSCRIPT"
  else if n = 65 then some "SUPERSCRIPT"
  else if n = 66 then some "SPOILER"
  else none

/-- The `"type"` rewrite inside one node dict: an integer-valued
`"type"` member becomes the mapped name or `"UNKNOWN_<code>"`. -/
def coerceNodeType (fields : List (String × JValue)) :
    List (String × JValue) :=
  match jGet fields "type" with
  | some (.num n) =>
    jSet fields "type" (.str ((nodeTypeName n).getD ("UNKNOWN_" ++ toString n)))
  | _ => fields

/-- Coerce one node of the `nodes` array: when it is a dict whose
`"type"` member is an integer, rewrite that member to the mapped name
or `"UNKNOWN_<code>"`.  In the source this assignment mutates the node
dict in place. -/
def coerceNode : JValue → JValue
  | .obj fields => .obj (coerceNodeType fields)
  | v => v

/-- The `nodes` loop of `_coerce_webhook_formats`: only a list value
is touched, and only its top-level dict elements. -/
def coerceNodes : JValue → JValue
  | .arr items => .arr (items.map coerceNode)
  | v => v

/-- `_extract_tags_from_nodes`: depth-first walk over dicts and lists
collecting `TagNode.content` strings, both directly and under one
`Node` wrapper; all member values are recursed into.  (The source also
accepts pydantic models by dumping them to dicts; payload values here
are already plain data.) -/
def extractTagsJ : JValue → List String
  | .obj fields => extractTagsDirect fields ++ extractTagsFields fields
  | .arr items => extractTagsItems items
  | _ => []
where
  /-- Tags contributed by this dict itself: a `"TagNode"` member with a
  string `content`, and a `"Node"` member holding such a `"TagNode"`. -/
  extractTagsDirect (fields : List (String × JValue)) : List String :=
    (match jGet fields "TagNode" with
     | some (.obj inner) =>
       match jGet inner "content" with
       | some (.str c) => [c]
       | _ => []
     | _ => []) ++
    (match jGet fields "Node" with
     | some (.obj nodeFields) =>
       match jGet nodeFields "TagNode" with
       | some (.obj inner) =>
         match jGet inner "content" with
         | some (.str c) => [c]
         | _ => []
       | _ => []
     | _ => [])
  extractTagsFields : List (String × JValue) → List String
    | [] => []
    | (_, v) :: rest => extractTagsJ v ++ extractTagsFields rest
  extractTagsItems : List JValue → List String
    | [] => []
    | v :: rest => extractTagsJ v ++ extractTagsItems rest

/-! ## `Memo._coerce_webhook_formats` (src/memotic/base.py) -/

/-- Civil date from days since the epoch (inverse of `daysFromCivil`),
for rendering `datetime.isoformat()`. -/
def civilFromDays (z0 : Int) : Int × Int × Int :=
  let z := z0 + 719468
  let era := Int.fdiv z 146097
  let doe := z - era * 146097
  let yoe := Int.fdiv (doe - Int.fdiv doe 1460 + Int.fdiv doe 36524 -
    Int.fdiv doe 146096) 365
  let y := yoe + era * 400
  let doy := doe - (365 * yoe + Int.fdiv yoe 4 - Int.fdiv yoe 100)
  let mp := Int.fdiv (5 * doy + 2) 153
  let d := doy - Int.fdiv (153 * mp + 2) 5 + 1
  let m := if mp < 10 then mp + 3 else mp - 9
  (if m ≤ 2 then y + 1 else y, m, d)

/-- Zero-padded decimal rendering of a nonnegative value. -/
def padInt (width : Nat) (n : Int) : String :=
  let s := toString n.toNat
  ⟨List.replicate (width - s.length) '0' ++ s.data⟩

/-- `datetime.isoformat()` for the modelled whole-second datetimes:
`YYYY-MM-DDTHH:MM:SS` with a `+HH:MM`-style suffix when aware. -/
def pyIsoFormat (dtv : PyDateTime) : String :=
  let days := Int.fdiv dtv.wall 86400
  let sod := Int.emod dtv.wall 86400
  let (y, m, d) := civilFromDays days
  let datePart := padInt 4 y ++ "-" ++ padInt 2 m ++ "-" ++ padInt 2 d
  let timePart := padInt 2 (Int.fdiv sod 3600) ++ ":" ++
    padInt 2 (Int.emod (Int.fdiv sod 60) 60) ++ ":" ++
    padInt 2 (Int.emod sod 60)
  let offPart :=
    match dtv.tz with
    | none => ""
    | some off =>
      let sign := if off < 0 then "-" else "+"
      let a := if off < 0 then -off else off
      sign ++ padInt 2 (Int.fdiv a 3600) ++ ":" ++
        padInt 2 (Int.emod (Int.fdiv a 60) 60)
  datePart ++ "T" ++ timePart ++ offPart

/-- One step of the datetime-field loop: when `key` is present, parse
it and (only on success) store the datetime under `snake`. -/
def coerceTimeField (tzOff : Int) (d : List (String × JValue))
    (key snake : String) : List (String × JValue) :=
  match jGet d key with
  | none => d
  | some v =>
    match parseDt tzOff v with
    | some p => jSet d snake (.dt p)
    | none => d

/-- One step of the display-time loop: parsed values are stored back
as `isoformat()` strings. -/
def coerceDisplayField (tzOff : Int) (d : List (String × JValue))
    (key snake : String) : List (String × JValue) :=
  match jGet d key with
  | none => d
  | some v =>
    match parseDt tzOff v with
    | some p => jSet d snake (.str (pyIsoFormat p))
    | none => d

/-- `enum_mappings["state"]`. -/
def stateName (n : Int) : Option String :=
  if n = 1 then some "NORMAL" else if n = 2 then some "ARCHIVED" else none

/-- `enum_mappings["visibility"]`. -/
def visibilityName (n : Int) : Option String :=
  if n = 1 then some "PRIVATE" else if n = 2 then some "PROTECTED"
  else if n = 3 then some "PUBLIC" else none

/-- One step of the enum loop: integer-coded values (Python `bool`
included, since `bool` is an `int`) are replaced by their mapped name
and left untouched when unknown. -/
def coerceEnumField (d : List (String × JValue)) (key : String)
    (mapping : Int → Option String) : List (String × JValue) :=
  match jGet d key with
  | some (.num n) =>
    match mapping n with
    | some s => jSet d key (.str s)
    | none => d
  | some (.bool b) =>
    match mapping (if b then 1 else 0) with
    | some s => jSet d key (.str s)
    | none => d
  | _ => d

/-- The part of `Memo._coerce_webhook_formats` before the nodes loop:
the datetime loop, the display-time loop and the enum loop, in source
order. -/
def coerceNonNodes (tzOff : Int) (fields : List (String × JValue)) :
    List (String × JValue) :=
  coerceEnumField
    (coerceEnumField
      (coerceDisplayField tzOff
        (coerceDisplayField tzOff
          (coerceTimeField tzOff
            (coerceTimeField tzOff
              (coerceTimeField tzOff
                (coerceTimeField tzOff fields "create_time" "create_time")
                "createTime" "create_time")
              "update_time" "update_time")
            "updateTime" "update_time")
          "display_time" "display_time")
        "displayTime" "display_time")
      "state" stateName)
    "visibility" visibilityName

/-- `Memo._coerce_webhook_formats` on the shallow copy of the memo
dict: the field loops above, then the node-type loop. -/
def coerceWebhookFormats (tzOff : Int) (fields : List (String × JValue)) :
    List (String × JValue) :=
  match jGet (coerceNonNodes tzOff fields) "nodes" with
  | some (.arr items) =>
    jSet (coerceNonNodes tzOff fields) "nodes" (.arr (items.map coerceNode))
  | _ => coerceNonNodes tzOff fields

/-- The caller's dict after `_coerce_webhook_formats` ran on it:
`data = dict(data)` copies only the top level, and every write except
the node-type loop goes to that copy; the node-type loop, however,
assigns `node["type"]` through references shared with the caller, so
the caller observes exactly the node coercion (assuming the payload's
sub-objects are not aliased to each other). -/
def callerViewAfterCoerce : JValue → JValue
  | .obj fields =>
    .obj (match jGet fields "nodes" with
      | some (.arr items) => jSet fields "nodes" (.arr (items.map coerceNode))
      | _ => fields)
  | v => v

/-! ## The `Memo` model

`Memo` in src/memotic/base.py extends `memos_api.models.Memo`, which
is outside this repository.  Modelled from the spec: the canonical
Note has `content` defaulting to `""`, `tags` an optional string list,
flexible `nodes`, and optional `create_time`/`update_time` instants
(spec section 3 and section 4.1, "missing optional fields default
safely").  Field validation is pydantic-like: present values of the
wrong shape make validation fail; datetime fields accept the datetime
objects produced by the coercion validator, while values the coercion
could not parse are modelled as rejected. -/

structure PyMemo where
  name : Option String
  content : String
  tags : Option (List String)
  nodes : Option JValue
  create_time : Option PyDateTime
  update_time : Option PyDateTime

/-- All-strings check for a `tags` array. -/
def allStrings : List JValue → Option (List String)
  | [] => some []
  | .str s :: rest => (allStrings rest).map (s :: ·)
  | _ => none

/-- Validate one optional string field. -/
def optStrField (fields : List (String × JValue)) (k : String) :
    Option (Option String) :=
  match jGet fields k with
  | none => some none
  | some .null => some none
  | some (.str s) => some (some s)
  | some _ => none

/-- Validate one optional datetime field, reading the snake-case key
first and the camel-case alias second. -/
def optDtField (fields : List (String × JValue)) (k alias' : String) :
    Option (Option PyDateTime) :=
  match (jGet fields k).orElse (fun _ => jGet fields alias') with
  | none => some none
  | some .null => some none
  | some (.dt d) => some (some d)
  | some _ => none

/-- Build a `PyMemo` from a memo-like payload value: run
`_coerce_webhook_formats`, then validate the modelled fields,
ignoring unknown keys.  Non-dict values fail validation. -/
def memoValidate (tzOff : Int) : JValue → Option PyMemo
  | .obj fields0 =>
    match optStrField (coerceWebhookFormats tzOff fields0) "name" with
    | none => none
    | some name =>
    match jGet (coerceWebhookFormats tzOff fields0) "content" with
    | some (.str s) => memoFinish (coerceWebhookFormats tzOff fields0) name s
    | none => memoFinish (coerceWebhookFormats tzOff fields0) name ""
    | some _ => none
  | _ => none
where
  /-- The `tags` field: absent or `None` defaults, a string list
  validates, anything else fails. -/
  memoTags (fields : List (String × JValue)) :
      Option (Option (List String)) :=
    match jGet fields "tags" with
    | none => some none
    | some .null => some none
    | some (.arr l) => (allStrings l).map some
    | some _ => none
  /-- The `nodes` field: kept as-is (absent or `None` become absent). -/
  memoNodes (fields : List (String × JValue)) : Option JValue :=
    match jGet fields "nodes" with
    | none => none
    | some .null => none
    | some v => some v
  memoFinish (fields : List (String × JValue)) (name : Option String)
      (content : String) : Option PyMemo :=
    match memoTags fields, optDtField fields "create_time" "createTime",
        optDtField fields "update_time" "updateTime" with
    | some tags, some ct, some ut =>
      some ⟨name, content, tags, memoNodes fields, ct, ut⟩
    | _, _, _ => none

/-! ## Event construction (`MemoWebhookEvent._coerce_envelopes`) -/

/-- `a or b or c ...` over dict lookups: the first truthy value. -/
def firstTruthyJ : List (Option JValue) → Option JValue
  | [] => none
  | v :: rest =>
    match v with
    | some x => if jTruthy x then some x else firstTruthyJ rest
    | none => firstTruthyJ rest

/-- `_normalize_activity`: strip and lowercase, then test the keyword
families in source order. -/
def normalizeActivity (s : String) : Option String :=
  if s = "" then none
  else
    let t := pyToLower (pyStrip s)
    if ["create", "created", "new", "insert"].any (pyContainsSub t) then
      some "create"
    else if ["update", "edit", "edited", "modify", "modified", "change",
        "changed"].any (pyContainsSub t) then
      some "update"
    else if ["delete", "deleted", "remove", "removed"].any
        (pyContainsSub t) then
      some "delete"
    else if pyContainsSub t "push" ∨ pyContainsSub t "commit" then
      some "push"
    else if pyContainsSub t "pull_request" ∨ pyContainsSub t "merge_request"
        ∨ t = "pr" ∨ t = "mr" then
      some "pull_request"
    else none

/-- The inline activity-hint scan of `_coerce_envelopes`: the first of
the seven keys that is present with a string value is normalized (and
the loop breaks); keys with non-string values are skipped. -/
def inlineHintKey (fields : List (String × JValue)) : Option String :=
  go ["activity", "action", "event", "type", "event_type", "operation",
      "activityType"]
where
  go : List String → Option String
    | [] => none
    | k :: rest =>
      match jGet fields k with
      | some (.str s) => some s
      | _ => go rest

/-- The parsed event: `memo` (required), optional `previous_memo` and
`user`, and the normalized `activity_hint`.  The `headers`,
`source_info` and `timestamp` fields of the external
`webhooky.WebhookEventBase` parent are not modelled. -/
structure PyEvent where
  memo : PyMemo
  previous_memo : Option PyMemo
  user : Option JValue
  activity_hint : Option String

/-- The memo-like envelope value: the first truthy of the four
envelope keys, defaulting to the payload itself. -/
def envMemoLike (fields : List (String × JValue)) : JValue :=
  (firstTruthyJ [jGet fields "memo", jGet fields "data",
    jGet fields "after", jGet fields "payload"]).getD (.obj fields)

/-- The previous-memo envelope value. -/
def envPrevLike (fields : List (String × JValue)) : Option JValue :=
  firstTruthyJ [jGet fields "previous", jGet fields "before",
    jGet fields "prev", jGet fields "old"]

/-- The actor envelope value. -/
def envUserLike (fields : List (String × JValue)) : Option JValue :=
  firstTruthyJ [jGet fields "user", jGet fields "creator",
    jGet fields "author"]

/-- The normalized inline activity hint as seen by the
`activity_hint` field: the scanned keys override any payload-provided
`activity_hint` value, which must itself be an optional string. -/
def envHint (fields : List (String × JValue)) : Option (Option String) :=
  match inlineHintKey fields with
  | some s => some (normalizeActivity s)
  | none =>
    match jGet fields "activity_hint" with
    | none => some none
    | some .null => some none
    | some (.str s) => some (some s)
    | some _ => none

/-- `cls.model_validate(raw_data)`: `_coerce_envelopes` on a shallow
copy (the added `raw_data` key is ignored by every modelled field; the
"no envelope" branch assigns the dict itself, which `Memo` validation
observes as the original fields), then field validation.  Non-dict
input fails validation. -/
def buildEvent (tzOff : Int) : JValue → Option PyEvent
  | .obj fields =>
    match memoValidate tzOff (envMemoLike fields) with
    | none => none
    | some memo =>
      match envPrevLike fields with
      | some p =>
        match memoValidate tzOff p with
        | none => none
        | some prev =>
          buildFinish memo (some prev) (envUserLike fields) (envHint fields)
      | none => buildFinish memo none (envUserLike fields) (envHint fields)
  | _ => none
where
  /-- The `user`/`creator`/`author` wrapping: a bare string becomes a
  minimal user object, a dict validates as-is, anything else truthy
  fails validation. -/
  userWrap (userLike : Option JValue) : Option (Option JValue) :=
    match userLike with
    | none => some none
    | some (.str s) => some (some (.obj [("username", .str s)]))
    | some (.obj fs) => some (some (.obj fs))
    | some _ => none
  buildFinish (memo : PyMemo) (prev : Option PyMemo)
      (userLike : Option JValue) (hint? : Option (Option String)) :
      Option PyEvent :=
    match userWrap userLike, hint? with
    | some user, some hint => some ⟨memo, prev, user, hint⟩
    | _, _ => none

/-! ## Tags and declarative matching -/

/-- The `tags` property: the memo's tag list (`or []`) extended with
the tags discovered in the node tree. -/
def eventTags (ev : PyEvent) : List String :=
  ev.memo.tags.getD [] ++
    (match ev.memo.nodes with
     | some ns => extractTagsJ ns
     | none => [])

/-- Normalization applied to each tag: `t.lstrip("#").strip().lower()`. -/
def normTag (t : String) : String := pyToLower (pyStrip (pyLstripHash t))

/-- `tags_normalized`: the deduplicated set of normalized tags (the
`isinstance(t, str)` filter is vacuous here since modelled tags are
strings). -/
def tagsNormalized (ev : PyEvent) : Finset String :=
  ((eventTags ev).map normTag).toFinset

/-- A registered event type's class-level matchers.  The compiled
`content_regex` is abstracted as a string predicate (`re.search`
truth); the base class itself (whose `matches` always refuses) is not
modelled — specs stand for proper subclasses. -/
structure EventSpec where
  any_tags : Finset String
  all_tags : Finset String
  content_contains : Option String
  regex : Option (String → Bool)

/-- Lowercasing of a declared tag set, `{t.lower() for t in tags}`. -/
def lowerSet (s : Finset String) : Finset String := s.image pyToLower

/-- An empty `content_contains` string is falsy at both use sites
(`or None` at the prefilter call, `if contains:` in phase 2). -/
def effContains : Option String → Option String
  | some s => if s = "" then none else some s
  | none => none

/-- `_gather_raw_paths` over pre-split key paths. -/
def resolvePath : JValue → List String → Option JValue
  | v, [] => some v
  | .obj fields, k :: ks =>
    match jGet fields k with
    | some v => resolvePath v ks
    | none => none
  | _, _ :: _ => none

/-- Try each path in order, returning the first value whose keys all
resolve. -/
def gatherRawPaths (raw : JValue) : List (List String) → Option JValue
  | [] => none
  | p :: rest =>
    match resolvePath raw p with
    | some v => some v
    | none => gatherRawPaths raw rest

/-- The tag candidate of `_cheap_prefilter` for one memo-like dict:
plain `tags` entries (string elements only) plus node-tree tags, all
normalized. -/
def prefilterMemoTags (m : List (String × JValue)) : List String :=
  (match jGet m "tags" with
   | some (.arr l) =>
     l.filterMap (fun v =>
       match v with
       | .str s => some (normTag s)
       | _ => none)
   | _ => []) ++
  (match jGet m "nodes" with
   | none => []
   | some .null => []
   | some ns => (extractTagsJ ns).map normTag)

/-- The shallow tag candidate of `_cheap_prefilter`: the tags of the
first envelope object found by key probing; no fallback to the
payload itself. -/
def prefilterTags (raw : JValue) : Finset String :=
  match gatherRawPaths raw [["memo"], ["data"], ["after"], ["payload"]] with
  | some (.obj m) => (prefilterMemoTags m).toFinset
  | _ => (∅ : Finset String)

/-- The shallow content candidate: the first existing
`*.content`/`content` path. -/
def prefilterContent (raw : JValue) : Option JValue :=
  gatherRawPaths raw
    [["memo", "content"], ["data", "content"], ["after", "content"],
     ["payload", "content"], ["content"]]

/-- `_cheap_prefilter`: with no declared predicate it always passes;
otherwise the shallow content candidate must satisfy the declared
content predicates, and the shallow tag candidate must satisfy the
declared tag predicates.  Arguments arrive already lowercased, as at
the call site in `matches`. -/
def cheapPrefilter (anyTags allTags : Finset String)
    (contains : Option String) (regex : Option (String → Bool))
    (raw : JValue) : Bool :=
  if anyTags = ∅ ∧ allTags = ∅ ∧ contains = none ∧ regex.isNone then true
  else
    (match contains with
     | none => true
     | some c =>
       match prefilterContent raw with
       | some (.str s) => pyContainsCI s c
       | _ => false) &&
    (match regex with
     | none => true
     | some r =>
       match prefilterContent raw with
       | some (.str s) => r s
       | _ => false) &&
    (if anyTags = ∅ ∧ allTags = ∅ then true
     else
       (!(anyTags ≠ ∅ ∧ prefilterTags raw ∩ anyTags = ∅) : Bool) &&
       (!(allTags ≠ ∅ ∧ ¬ allTags ⊆ prefilterTags raw) : Bool))

/-- The declarative checks of `matches` phase 2, evaluated on the
validated candidate. -/
def declChecks (spec : EventSpec) (ev : PyEvent) : Bool :=
  let tags := tagsNormalized ev
  let anyT := lowerSet spec.any_tags
  let allT := lowerSet spec.all_tags
  let anyOk : Bool := !(anyT ≠ ∅ ∧ tags ∩ anyT = ∅)
  let allOk : Bool := !(allT ≠ ∅ ∧ ¬ allT ⊆ tags)
  let containsOk :=
    match effContains spec.content_contains with
    | none => true
    | some c => pyContainsCI ev.memo.content c
  let regexOk :=
    match spec.regex with
    | none => true
    | some r => r ev.memo.content
  anyOk && allOk && containsOk && regexOk

/-- Phase 2 of `matches`: full model validation (a validation failure
is a non-match) followed by the declarative checks. -/
def matchesPhase2 (tzOff : Int) (spec : EventSpec) (raw : JValue) : Bool :=
  match buildEvent tzOff raw with
  | none => false
  | some ev => declChecks spec ev

/-- `MemoWebhookEvent.matches`: cheap prefilter, then phase 2. -/
def matchesEvent (tzOff : Int) (spec : EventSpec) (raw : JValue) : Bool :=
  if cheapPrefilter (lowerSet spec.any_tags) (lowerSet spec.all_tags)
      (effContains spec.content_contains) spec.regex raw then
    matchesPhase2 tzOff spec raw
  else false

/-! ## Activity resolution (`MemoWebhookEvent.get_activity`) -/

/-- Header dict lookup (`headers.get(k)`), values of arbitrary type. -/
def hGetJ (headers : List (String × JValue)) (k : String) : Option JValue :=
  match headers with
  | [] => none
  | (k', v) :: rest => if k' = k then some v else hGetJ rest k

/-- `a or b` over two lookups: the second is used when the first is
missing or falsy. -/
def pyOrJ (a b : Option JValue) : Option JValue :=
  match a with
  | some v => if jTruthy v then some v else b
  | none => b

/-- The six probed header names with their Python `.title()` forms. -/
def knownHeaderNames : List (String × String) :=
  [("x-memos-event", "X-Memos-Event"),
   ("x-event-type", "X-Event-Type"),
   ("x-github-event", "X-Github-Event"),
   ("x-webhook-event", "X-Webhook-Event"),
   ("x-activity", "X-Activity"),
   ("x-action", "X-Action")]

/-- `get_activity`: scan the known header names in order, accepting
the first whose (string) value normalizes; fall back to the truthy
inline `activity_hint`; fall back to the timestamp comparison
(`updated == created` means create, `updated > created` means update,
with the naive/aware `TypeError` of `>` swallowed); finally `"any"`.
An absent headers dict behaves like the empty one. -/
def getActivity (headers : List (String × JValue)) (hint : Option String)
    (ct ut : Option PyDateTime) : String :=
  headerStep knownHeaderNames
where
  tsFallback : String :=
    match ct, ut with
    | some c, some u =>
      if pyDtEq u c then "create"
      else
        match pyDtGt u c with
        | some true => "update"
        | _ => "any"
    | _, _ => "any"
  hintStep : String :=
    match hint with
    | some h => if h ≠ "" then h else tsFallback
    | none => tsFallback
  headerStep : List (String × String) → String
    | [] => hintStep
    | (name, title) :: rest =>
      match pyOrJ (hGetJ headers name) (hGetJ headers title) with
      | some (.str s) =>
        match normalizeActivity s with
        | some a => a
        | none => headerStep rest
      | _ => headerStep rest

/-- Stage 1 viewed as a partial result: the first of the six known
headers carrying a recognizable value. -/
def headerResolve (headers : List (String × JValue)) : Option String :=
  go knownHeaderNames
where
  go : List (String × String) → Option String
    | [] => none
    | (name, title) :: rest =>
      match pyOrJ (hGetJ headers name) (hGetJ headers title) with
      | some (.str s) =>
        match normalizeActivity s with
        | some a => some a
        | none => go rest
      | _ => go rest

/-- Stage 2 viewed as a partial result: the inline hint when truthy. -/
def truthyStr : Option String → Option String
  | some h => if h ≠ "" then some h else none
  | none => none

/-- Stage 3 viewed as a partial result: timestamp inference — equal
instants mean `create`, a strictly later update means `update`,
everything else (including the naive/aware comparison error) defers. -/
def tsResolve (ct ut : Option PyDateTime) : Option String :=
  match ct, ut with
  | some c, some u =>
    if pyDtEq u c then some "create"
    else
      match pyDtGt u c with
      | some true => some "update"
      | _ => none
  | _, _ => none

/-! ## Concrete example values used by the theorems -/

/-- A concrete tokenizer standing in for `shlex.split` on the
quote-free example commands: plain whitespace splitting. -/
def tokWs : String → Option (List String) := fun s => some (pySplitWs s)

/-- Event type declaring `any_tags={"a","b"}`, `all_tags={"b","c"}`. -/
def specAB : EventSpec := ⟨{"a", "b"}, {"b", "c"}, none, none⟩

/-- Enveloped payload whose memo carries tags `{"b","c","d"}`. -/
def payloadTagsBCD : JValue :=
  .obj [("memo", .obj [("content", .str ""),
    ("tags", .arr [.str "b", .str "c", .str "d"])])]

/-- Enveloped payload whose memo carries tags `{"a","c"}`. -/
def payloadTagsAC : JValue :=
  .obj [("memo", .obj [("content", .str ""),
    ("tags", .arr [.str "a", .str "c"])])]

/-- Event type declaring `any_tags={"cli"}` only. -/
def specCli : EventSpec := ⟨{"cli"}, ∅, none, none⟩

/-- Memo fields with content `"x"` and tag `"cli"`. -/
def memoFieldsEx : List (String × JValue) :=
  [("content", .str "x"), ("tags", .arr [.str "cli"])]

/-- A bare payload: the memo fields at top level, no envelope key. -/
def rawBare : JValue := .obj memoFieldsEx

/-- The same memo wrapped in a `memo` envelope. -/
def envFieldsEx : List (String × JValue) := [("memo", .obj memoFieldsEx)]

/-- The enveloped payload. -/
def rawEnveloped : JValue := .obj envFieldsEx

/-! # Theorems -/

/-! ## Generic list/string lemmas -/

theorem pyRstrip_length_le (s : String) : (pyRstrip s).length ≤ s.length := by
  show (pyRstripList s.data).length ≤ s.data.length
  unfold pyRstripList
  calc ((s.data.reverse.dropWhile pyIsSpace).reverse).length
      = (s.data.reverse.dropWhile pyIsSpace).length := by
        rw [List.length_reverse]
    _ ≤ s.data.reverse.length := (List.dropWhile_sublist _).length_le
    _ = s.data.length := by rw [List.length_reverse]

theorem joinNl_append_last :
    ∀ (g : List String) (p : String),
      joinNl (g ++ [p]) = if g = [] then p else joinNl g ++ "\n" ++ p
  | [], _ => rfl
  | [_], _ => rfl
  | a :: b :: g', p => by
    have ih := joinNl_append_last (b :: g') p
    show a ++ "\n" ++ joinNl ((b :: g') ++ [p]) = _
    rw [ih, if_neg (List.cons_ne_nil _ _), if_neg (List.cons_ne_nil _ _)]
    have hr : joinNl (a :: b :: g') = a ++ "\n" ++ joinNl (b :: g') := rfl
    rw [hr]
    simp only [String.append_assoc]

theorem joinNl_eq_empty_iff (g : List String) (h : ∀ p ∈ g, p ≠ "") :
    joinNl g = "" ↔ g = [] := by
  constructor
  · intro he
    cases g with
    | nil => rfl
    | cons a g' =>
      exfalso
      cases g' with
      | nil =>
        exact h a (List.mem_cons_self a _) he
      | cons b g'' =>
        have hl := congrArg String.length he
        simp only [joinNl, String.length_append] at hl
        have h1 : ("\n" : String).length = 1 := rfl
        have h2 : ("" : String).length = 0 := rfl
        rw [h1, h2] at hl
        omega
  · intro he; subst he; rfl

/-! ## C1: stop-on-first-hard-failure executor loop -/

/-- C1: for every ordered command list, the executor loop yields, in
order, exactly one result per executed command — the prefix of the
command list up to and including the first hard failure (first
command whose outcome is a nonzero exit, or an exception, while its
`allow_fail` flag is false); later commands are never executed, an
allowed failure does not stop the sequence, an exception yields a
result with exit code `-1` and the exception text as stderr, and a
command is halting exactly when its yielded exit code is nonzero and
its `allow_fail` flag is false (so exceptions are treated like
failing exits). -/
theorem executor_stops_at_first_hard_failure
    (ex : String → ExecOutcome) (cs : List CliCommandM) :
    (runCliLoop ex cs =
      (cs.take (cs.findIdx (hardFails ex) + 1)).map (resultOf ex)) ∧
    (∀ c, hardFails ex c = true ↔
      ((resultOf ex c).exitCode ≠ 0 ∧ c.allow_fail = false)) ∧
    (∀ c msg, ex c.raw_command = .exn msg →
      resultOf ex c = ⟨c.raw_command, -1, "", msg, none⟩) := by
  refine ⟨?_, ?_, ?_⟩
  · induction cs with
    | nil => simp [runCliLoop]
    | cons c rest ih =>
      rw [List.findIdx_cons]
      cases hex : ex c.raw_command with
      | ok code out err t =>
        by_cases hf : code ≠ 0 ∧ c.allow_fail = false
        · have hh : hardFails ex c = true := by
            simp [hardFails, hex, hf.1, hf.2]
          simp [runCliLoop, hex, hf, hh, resultOf]
        · have hh : hardFails ex c = false := by
            simp only [hardFails, hex]
            simpa using hf
          simp [runCliLoop, hex, hf, hh, resultOf, ih, List.take_succ_cons]
      | exn msg =>
        by_cases hf : c.allow_fail = false
        · have hh : hardFails ex c = true := by simp [hardFails, hex, hf]
          simp [runCliLoop, hex, hf, hh, resultOf]
        · have hh : hardFails ex c = false := by simp [hardFails, hex, hf]
          simp [runCliLoop, hex, hf, hh, resultOf, ih, List.take_succ_cons]
  · intro c
    cases hex : ex c.raw_command with
    | ok code out err t => simp [hardFails, hex, resultOf]
    | exn msg => simp [hardFails, hex, resultOf]
  · intro c msg hex
    simp [resultOf, hex]

/-- Witness for C1 at concrete inputs: a failing `false`-like command
without `allow_fail` stops the sequence after two of three commands,
and an exception surfaces as exit `-1` with its text as stderr. -/
theorem executor_stops_witness :
    (runCliLoop
      (fun s => if s = "boom" then .exn "kaput"
        else if s = "false" then .ok 1 "" "" (some 0)
        else .ok 0 "out" "" (some 0))
      [⟨"echo first", false, .echo, [], []⟩,
       ⟨"false", false, .generic, [], []⟩,
       ⟨"echo never", false, .echo, [], []⟩] =
      [⟨"echo first", 0, "out", "", some 0⟩,
       ⟨"false", 1, "", "", some 0⟩]) ∧
    (resultOf (fun s => if s = "boom" then .exn "kaput"
        else if s = "false" then .ok 1 "" "" (some 0)
        else .ok 0 "out" "" (some 0))
      ⟨"boom", false, .generic, [], []⟩ = ⟨"boom", -1, "", "kaput", none⟩) := by
  have h := executor_stops_at_first_hard_failure
    (fun s => if s = "boom" then .exn "kaput"
      else if s = "false" then .ok 1 "" "" (some 0)
      else .ok 0 "out" "" (some 0))
    [⟨"echo first", false, .echo, [], []⟩,
     ⟨"false", false, .generic, [], []⟩,
     ⟨"echo never", false, .echo, [], []⟩]
  refine ⟨?_, ?_⟩
  · rw [h.1]; decide
  · exact h.2.2 ⟨"boom", false, .generic, [], []⟩ "kaput" rfl

/-! ## C3: container preparation failure -/

/-- C3: for every non-empty command list, when acquiring the sandbox
raises with text `e`, `run_cli_lines` yields exactly one synthetic
result wrapping the preparation error — the first command's string,
exit code `-1`, empty stdout, stderr `"Container setup failed: " ++ e`
and no duration — and executes no command (the sandbox executor is
never consulted); the failure is returned as a value, not propagated. -/
theorem sandbox_failure_yields_single_synthetic_result
    (e : String) (c : CliCommandM) (rest : List CliCommandM) :
    runCliCommands (.error e) (c :: rest) =
      [⟨c.raw_command, -1, "", "Container setup failed: " ++ e, none⟩] := rfl

/-! ## C2: dangerous-pattern rejection -/

theorem mem_getSafeCommands (tok : String → Option (List String)) :
    ∀ (cmds : List (String × Bool)) (c : CliCommandM),
      c ∈ getSafeCommands tok cmds →
      cliIsSafe c = true ∧ ∃ p ∈ cmds, c = parseCliCommand tok p.1 p.2
  | [], _, h => by simp [getSafeCommands] at h
  | (raw, af) :: rest, c, h => by
    simp only [getSafeCommands] at h
    by_cases hs : cliIsSafe (parseCliCommand tok raw af) = true
    · rw [if_pos hs] at h
      rcases List.mem_cons.mp h with he | ht
      · subst he
        exact ⟨hs, ⟨(raw, af), List.mem_cons_self _ _, rfl⟩⟩
      · obtain ⟨h1, p, hp, he⟩ := mem_getSafeCommands tok rest c ht
        exact ⟨h1, p, List.mem_cons_of_mem _ hp, he⟩
    · rw [if_neg hs] at h
      obtain ⟨h1, p, hp, he⟩ := mem_getSafeCommands tok rest c h
      exact ⟨h1, p, List.mem_cons_of_mem _ hp, he⟩

/-- C2 counterexample: the command `"echo hi; sudo rm -rf /"` matches
the dangerous-pattern deny-list (it contains `sudo ` and
`rm -rf /`), yet because the recognizer chain hands every command
whose stripped text starts with `echo` to `EchoCommand` — whose
`is_safe()` is unconditionally true — it survives `get_safe_commands`
and is passed to the executor, refuting the claim that every
deny-list-matching extracted command is excluded. -/
theorem dangerous_echo_command_survives_safety_filter :
    matchesDangerous "echo hi; sudo rm -rf /" = true ∧
    getSafeCommands tokWs [("echo hi; sudo rm -rf /", false)] =
      [⟨"echo hi; sudo rm -rf /", false, .echo,
        ["hi;", "sudo", "rm", "-rf", "/"], ["r", "f"]⟩] := by decide

/-- C2 amended: every command that the generic recognizer handles
(stripped text starting with neither `echo` nor `git`) and that
matches the dangerous-pattern deny-list is excluded from the safe
command list — so it never reaches the executor — and the exclusion
removes nothing else: every extracted command whose handling
recognizer deems it safe is kept (with its `allow_fail` flag).
Commands captured by the `echo`/`git` recognizers are subject to
those recognizers' own safety rules instead of the deny-list. -/
theorem generic_dangerous_commands_are_excluded
    (tok : String → Option (List String)) (cmds : List (String × Bool)) :
    (∀ c ∈ getSafeCommands tok cmds,
      handlerFor c.raw_command = .generic →
      matchesDangerous c.raw_command = false) ∧
    (∀ raw af, (raw, af) ∈ cmds →
      cliIsSafe (parseCliCommand tok raw af) = true →
      parseCliCommand tok raw af ∈ getSafeCommands tok cmds) := by
  constructor
  · intro c hc hgen
    obtain ⟨hsafe, p, _, he⟩ := mem_getSafeCommands tok cmds c hc
    have hk : c.kind = handlerFor c.raw_command := by
      subst he; rfl
    rw [hgen] at hk
    rw [cliIsSafe, hk] at hsafe
    simpa using hsafe
  · intro raw af hmem hsafe
    induction cmds with
    | nil => simp at hmem
    | cons q rest ih =>
      rcases List.mem_cons.mp hmem with he | ht
      · subst he
        simp only [getSafeCommands, if_pos hsafe]
        exact List.mem_cons_self _ _
      · simp only [getSafeCommands]
        rcases q with ⟨qraw, qaf⟩
        by_cases hq : cliIsSafe (parseCliCommand tok qraw qaf) = true
        · rw [if_pos hq]
          exact List.mem_cons_of_mem _ (ih ht)
        · rw [if_neg hq]
          exact ih ht

/-- Witness for the amended C2 at concrete inputs: the safe
generically-handled command `"ls -la"` is not deny-listed and is kept
by `get_safe_commands`. -/
theorem generic_dangerous_excluded_witness :
    matchesDangerous "ls -la" = false ∧
    parseCliCommand tokWs "ls -la" false ∈
      getSafeCommands tokWs [("ls -la", false)] := by
  have h := generic_dangerous_commands_are_excluded tokWs [("ls -la", false)]
  constructor
  · have := h.1 (parseCliCommand tokWs "ls -la" false)
      (by decide) (by decide)
    simpa using this
  · exact h.2 "ls -la" false (by decide) (by decide)

/-! ## C8: result chunking -/

theorem groupsGo_join (maxChars : Nat) :
    ∀ (cs : List String) (groups : List (List String)) (cur : List String),
      (groupsGo maxChars groups cur cs).flatten = groups.flatten ++ cur ++ cs
  | [], groups, cur => by
    by_cases h : cur = []
    · subst h; simp [groupsGo]
    · simp [groupsGo, h]
  | p :: rest, groups, cur => by
    simp only [groupsGo]
    by_cases h : (joinNl cur).length + p.length + 1 > maxChars ∧ cur ≠ []
    · rw [if_pos h, groupsGo_join maxChars rest]
      simp
    · rw [if_neg h, groupsGo_join maxChars rest]
      simp

theorem summarizeGo_eq_groupsGo (maxChars : Nat) :
    ∀ (cs : List String) (groups : List (List String)) (cur : List String),
      (∀ p ∈ cs, p ≠ "") → (∀ p ∈ cur, p ≠ "") →
      summarizeGo maxChars (groups.map fun g => pyRstrip (joinNl g))
          (joinNl cur) cs =
        (groupsGo maxChars groups cur cs).map fun g => pyRstrip (joinNl g)
  | [], groups, cur, _, hcur => by
    simp only [summarizeGo, groupsGo]
    by_cases h : cur = []
    · subst h
      simp [joinNl]
    · rw [if_pos, if_pos h, List.map_append]
      · rfl
      · exact fun he => h ((joinNl_eq_empty_iff cur hcur).mp he)
  | p :: rest, groups, cur, hcs, hcur => by
    have hp : p ≠ "" := hcs p (List.mem_cons_self _ _)
    have hrest : ∀ q ∈ rest, q ≠ "" := fun q hq => hcs q (List.mem_cons_of_mem _ hq)
    simp only [summarizeGo, groupsGo]
    by_cases h : (joinNl cur).length + p.length + 1 > maxChars ∧ cur ≠ []
    · have hne : joinNl cur ≠ "" :=
        fun he => h.2 ((joinNl_eq_empty_iff cur hcur).mp he)
      rw [if_pos ⟨h.1, hne⟩, if_pos h]
      have hmap : (groups.map fun g => pyRstrip (joinNl g)) ++
          [pyRstrip (joinNl cur)] =
          ((groups ++ [cur]).map fun g => pyRstrip (joinNl g)) := by
        simp
      rw [hmap]
      have := summarizeGo_eq_groupsGo maxChars rest (groups ++ [cur]) [p]
        hrest (by simpa using hp)
      simpa [joinNl] using this
    · have hiff : ((joinNl cur).length + p.length + 1 > maxChars ∧
          joinNl cur ≠ "") ↔ ((joinNl cur).length + p.length + 1 > maxChars ∧
          cur ≠ []) := by
        constructor
        · rintro ⟨h1, h2⟩
          exact ⟨h1, fun hc => h2 ((joinNl_eq_empty_iff cur hcur).mpr hc)⟩
        · rintro ⟨h1, h2⟩
          exact ⟨h1, fun he => h2 ((joinNl_eq_empty_iff cur hcur).mp he)⟩
      rw [if_neg (fun hh => h (hiff.mp hh)), if_neg h]
      have hbuf : (if joinNl cur = "" then p else joinNl cur ++ "\n" ++ p) =
          joinNl (cur ++ [p]) := by
        rw [joinNl_append_last]
        by_cases hc : cur = []
        · subst hc; simp [joinNl]
        · rw [if_neg hc,
            if_neg (fun he => hc ((joinNl_eq_empty_iff cur hcur).mp he))]
      rw [hbuf]
      exact summarizeGo_eq_groupsGo maxChars rest groups (cur ++ [p]) hrest
        (by
          intro q hq
          rcases List.mem_append.mp hq with hq | hq
          · exact hcur q hq
          · simpa using (List.mem_singleton.mp hq ▸ hp))

theorem groupsGo_bounded (maxChars : Nat) :
    ∀ (cs : List String) (groups : List (List String)) (cur : List String),
      (∀ p ∈ cs, p.length ≤ maxChars) →
      (joinNl cur).length ≤ maxChars →
      (∀ g ∈ groups, (joinNl g).length ≤ maxChars) →
      ∀ g ∈ groupsGo maxChars groups cur cs, (joinNl g).length ≤ maxChars
  | [], groups, cur, _, hcur, hgroups => by
    simp only [groupsGo]
    by_cases h : cur = []
    · subst h; simpa using hgroups
    · rw [if_pos h]
      intro g hg
      rcases List.mem_append.mp hg with hg | hg
      · exact hgroups g hg
      · rwa [List.mem_singleton.mp hg]
  | p :: rest, groups, cur, hcs, hcur, hgroups => by
    have hp : p.length ≤ maxChars := hcs p (List.mem_cons_self _ _)
    have hrest : ∀ q ∈ rest, q.length ≤ maxChars :=
      fun q hq => hcs q (List.mem_cons_of_mem _ hq)
    simp only [groupsGo]
    by_cases h : (joinNl cur).length + p.length + 1 > maxChars ∧ cur ≠ []
    · rw [if_pos h]
      refine groupsGo_bounded maxChars rest (groups ++ [cur]) [p] hrest
        (by simpa [joinNl] using hp) ?_
      intro g hg
      rcases List.mem_append.mp hg with hg | hg
      · exact hgroups g hg
      · rwa [List.mem_singleton.mp hg]
    · rw [if_neg h]
      refine groupsGo_bounded maxChars rest groups (cur ++ [p]) hrest ?_ hgroups
      rw [joinNl_append_last]
      by_cases hc : cur = []
      · subst hc; simpa using hp
      · rw [if_neg hc]
        simp only [String.length_append]
        have hnl : ("\n" : String).length = 1 := rfl
        rw [hnl]
        have hle : ¬ ((joinNl cur).length + p.length + 1 > maxChars) :=
          fun hgt => h ⟨hgt, hc⟩
        omega

/-- C8 counterexample: a single rendered block of four characters
against a configured maximum of three characters is emitted as one
chunk of length four, exceeding the maximum — refuting the claim that
no chunk ever exceeds the configured maximum character count. -/
theorem oversized_block_exceeds_chunk_limit :
    summarizeResults 3 ["abcd"] = ["abcd"] ∧ 3 < ("abcd" : String).length := by
  constructor
  · rfl
  · decide

/-- C8 amended: for every sequence of nonempty rendered blocks, the
reporter splits the block sequence into consecutive groups — so a
chunk boundary never falls inside a block, and joining the groups
returns exactly the original blocks, none lost, duplicated or
reordered; each emitted chunk is the newline-join of its group with
trailing whitespace stripped; and provided every single block fits in
the configured maximum, no chunk exceeds that maximum (a block longer
than the maximum still becomes one oversized chunk rather than being
split). -/
theorem chunking_preserves_blocks_and_bound (maxChars : Nat)
    (cs : List String) (hne : ∀ p ∈ cs, p ≠ "") :
    (summarizeResults maxChars cs =
      (chunkGroups maxChars cs).map fun g => pyRstrip (joinNl g)) ∧
    (chunkGroups maxChars cs).flatten = cs ∧
    ((∀ p ∈ cs, p.length ≤ maxChars) →
      ∀ chunk ∈ summarizeResults maxChars cs, chunk.length ≤ maxChars) := by
  have hmain : summarizeResults maxChars cs =
      (chunkGroups maxChars cs).map fun g => pyRstrip (joinNl g) := by
    cases cs with
    | nil => rfl
    | cons p rest =>
      have := summarizeGo_eq_groupsGo maxChars (p :: rest) [] [] hne
        (by intro q hq; simp at hq)
      simpa [summarizeResults, chunkGroups, joinNl] using this
  refine ⟨hmain, ?_, ?_⟩
  · simpa using groupsGo_join maxChars cs [] []
  · intro hbound chunk hchunk
    rw [hmain] at hchunk
    obtain ⟨g, hg, rfl⟩ := List.mem_map.mp hchunk
    have hgb : (joinNl g).length ≤ maxChars := by
      refine groupsGo_bounded maxChars cs [] [] hbound ?_ ?_ g hg
      · simp [joinNl]
      · intro g' hg'; simp at hg'
    exact le_trans (pyRstrip_length_le _) hgb

/-- Witness for the amended C8 at concrete inputs: three 3-character
blocks with a 10-character limit are packed as two chunks (the first
two blocks newline-joined, then the third), preserving every block
and respecting the bound. -/
theorem chunking_witness :
    summarizeResults 10 ["aaa", "bbb", "ccc"] = ["aaa\nbbb", "ccc"] ∧
    (chunkGroups 10 ["aaa", "bbb", "ccc"]).flatten = ["aaa", "bbb", "ccc"] ∧
    ∀ chunk ∈ summarizeResults 10 ["aaa", "bbb", "ccc"],
      chunk.length ≤ 10 := by
  have h := chunking_preserves_blocks_and_bound 10 ["aaa", "bbb", "ccc"]
    (by decide)
  refine ⟨?_, h.2.1, h.2.2 (by decide)⟩
  rw [h.1]
  rfl

/-! ## C5: tag normalization -/

/-- C5 counterexample: the tag `" #Work"` — leading whitespace before
the hash — normalizes to `"#work"`, which still starts with `"#"`: the
normalized set is not a set of hash-stripped strings, because
`lstrip("#")` runs before `strip()`. -/
theorem tag_hash_after_whitespace_survives :
    tagsNormalized ⟨⟨none, "", some [" #Work"], none, none, none⟩,
      none, none, none⟩ = {"#work"} ∧
    pyStartsWith "#work" "#" = true := by
  constructor
  · rfl
  · decide

/-- C5 amended: for every list of tag strings, the tag set used for
predicate matching is the deduplicated set obtained by applying, in
this order, leading-`#` stripping, whitespace trimming, then
lowercasing to each tag (so a `#` that follows leading whitespace
survives); `["#Work", "work"]` yields exactly `{"work"}`; and the raw
`tags` field of the Note keeps the original strings unchanged. -/
theorem tags_normalized_order_of_operations
    (name : Option String) (content : String) (ts : List String) :
    tagsNormalized ⟨⟨name, content, some ts, none, none, none⟩,
        none, none, none⟩ =
      (ts.map fun t => pyToLower (pyStrip (pyLstripHash t))).toFinset ∧
    (⟨⟨name, content, some ts, none, none, none⟩, none, none, none⟩ :
      PyEvent).memo.tags = some ts ∧
    tagsNormalized ⟨⟨none, "", some ["#Work", "work"], none, none, none⟩,
      none, none, none⟩ = {"work"} := by
  refine ⟨?_, rfl, by rfl⟩
  simp only [tagsNormalized, eventTags, List.append_nil]
  rfl

/-! ## C6: timestamp format normalization -/

/-- C6 counterexample: at epoch second 1700000000 (host timezone UTC,
offset 0), the `{"seconds": N}` object and the numeric epoch value
both normalize to the naive local datetime, but the equivalent
ISO-8601 string with a trailing `Z` normalizes to a timezone-aware
value, and Python's `==` never equates an aware datetime with a naive
one — so the three encodings do not all normalize to the same internal
instant value. -/
theorem z_suffixed_iso_differs_from_epoch_forms :
    parseDt 0 (.num 1700000000) = some ⟨1700000000, none⟩ ∧
    parseDt 0 (.obj [("seconds", .num 1700000000)]) =
      some ⟨1700000000, none⟩ ∧
    parseDt 0 (.str "2023-11-14T22:13:20Z") = some ⟨1700000000, some 0⟩ ∧
    pyDtEq ⟨1700000000, none⟩ ⟨1700000000, some 0⟩ = false := by
  refine ⟨rfl, ?_, ?_, rfl⟩
  · rfl
  · rfl

/-- C6 amended: the `{"seconds": N}` object and the numeric epoch `N`
normalize to the identical naive local instant for every `N` and every
host timezone; a `Z`-suffixed ISO string instead yields a
timezone-aware value, which is never equal (as an internal value) to
the naive value produced by the numeric forms; and an unparsable
timestamp normalizes to absent (`None`) rather than raising. -/
theorem timestamp_forms_partial_equivalence (tz n : Int) :
    parseDt tz (.obj [("seconds", .num n)]) = parseDt tz (.num n) ∧
    parseDt tz (.num n) = some ⟨n + tz, none⟩ ∧
    (∀ w1 w2 off : Int, pyDtEq ⟨w1, none⟩ ⟨w2, some off⟩ = false) ∧
    parseDt tz (.str "not-a-timestamp") = none := by
  exact ⟨rfl, rfl, fun _ _ _ => rfl, rfl⟩

/-! ## C10: in-place mutation of the caller's payload -/

/-- C10: constructing or matching an event from a payload whose memo
carries a `nodes` array does not leave the caller's dictionary
unchanged: `_coerce_webhook_formats` copies only the top level
(`data = dict(data)`, commented "Don't modify original") and then
rewrites `node["type"]` through the shared nested node dicts, so the
caller's payload `{"nodes": [{"type": 59}]}` is observed afterwards as
`{"nodes": [{"type": "TAG"}]}` — a different value.  This confirms the
code violates the no-mutation intent stated by its own comment. -/
theorem node_type_coercion_mutates_caller_payload :
    callerViewAfterCoerce (.obj [("nodes", .arr [.obj [("type", .num 59)]])]) =
      (.obj [("nodes", .arr [.obj [("type", .str "TAG")]])]) ∧
    (JValue.obj [("nodes", .arr [.obj [("type", .str "TAG")]])]) ≠
      (.obj [("nodes", .arr [.obj [("type", .num 59)]])]) := by
  constructor
  · rfl
  · intro h
    simp only [JValue.obj.injEq, List.cons.injEq, Prod.mk.injEq,
      JValue.arr.injEq, and_true, true_and] at h
    exact JValue.noConfusion h

/-! ## C4: predicate conjunction -/

/-- C4: a predicate match succeeds only if every declared predicate
passes against the normalized Note: with a declared (nonempty)
`any_tags` set the normalized tag set must intersect its lowercased
form, the lowercased `all_tags` set must be a subset of the normalized
tag set (both must hold when both are declared), and a declared
nonempty `content_contains` string must occur case-insensitively in
the content; in particular `any_tags={"a","b"}`, `all_tags={"b","c"}`
matches the Note with tags `{"b","c","d"}` and not the one with tags
`{"a","c"}`. -/
theorem match_requires_declared_predicates :
    (∀ (tz : Int) (spec : EventSpec) (raw : JValue),
      matchesEvent tz spec raw = true →
      ∃ ev, buildEvent tz raw = some ev ∧
        (spec.any_tags ≠ ∅ →
          tagsNormalized ev ∩ lowerSet spec.any_tags ≠ ∅) ∧
        lowerSet spec.all_tags ⊆ tagsNormalized ev ∧
        (∀ c, spec.content_contains = some c → c ≠ "" →
          pyContainsCI ev.memo.content c = true)) ∧
    matchesEvent 0 specAB payloadTagsBCD = true ∧
    matchesEvent 0 specAB payloadTagsAC = false := by
  refine ⟨?_, by decide, by decide⟩
  intro tz spec raw h
  rw [matchesEvent] at h
  by_cases hpre : cheapPrefilter (lowerSet spec.any_tags)
      (lowerSet spec.all_tags) (effContains spec.content_contains)
      spec.regex raw = true
  swap
  · rw [if_neg ?_] at h
    · exact absurd h (by simp)
    · simpa using hpre
  rw [if_pos hpre, matchesPhase2] at h
  cases hb : buildEvent tz raw with
  | none => rw [hb] at h; exact absurd h (by simp)
  | some ev =>
    rw [hb] at h
    simp only [declChecks, Bool.and_eq_true, Bool.not_eq_true',
      decide_eq_false_iff_not, not_and, not_not] at h
    obtain ⟨⟨⟨hAny, hAll⟩, hContains⟩, _⟩ := h
    refine ⟨ev, rfl, ?_, ?_, ?_⟩
    · intro hne hint
      have hne' : lowerSet spec.any_tags ≠ ∅ := by
        simpa [lowerSet, Finset.image_eq_empty] using hne
      exact hAny hne' hint
    · by_cases hcase : lowerSet spec.all_tags = ∅
      · rw [hcase]; exact Finset.empty_subset _
      · exact hAll hcase
    · intro c hc hcne
      rw [hc] at hContains
      have heff : effContains (some c) = some c := by
        simp [effContains, hcne]
      rw [heff] at hContains
      exact hContains

/-- Witness for C4 at concrete inputs: the event type with
`any_tags={"a","b"}`, `all_tags={"b","c"}` matches the payload whose
memo carries tags `{"b","c","d"}`, and the declared predicates indeed
pass there. -/
theorem declared_predicates_witness :
    ∃ ev, buildEvent 0 payloadTagsBCD = some ev ∧
      (specAB.any_tags ≠ ∅ →
        tagsNormalized ev ∩ lowerSet specAB.any_tags ≠ ∅) ∧
      lowerSet specAB.all_tags ⊆ tagsNormalized ev ∧
      (∀ c, specAB.content_contains = some c → c ≠ "" →
        pyContainsCI ev.memo.content c = true) :=
  match_requires_declared_predicates.1 0 specAB payloadTagsBCD (by decide)

/-! ## C7: activity resolution priority -/

theorem hintStep_eq (hint : Option String) (ct ut : Option PyDateTime) :
    getActivity.hintStep hint ct ut =
      (((truthyStr hint).orElse fun _ => tsResolve ct ut).getD "any") := by
  cases hint with
  | none =>
    cases ct <;> cases ut <;>
      simp only [getActivity.hintStep, getActivity.tsFallback, truthyStr,
        tsResolve, Option.orElse_none, Option.none_orElse, Option.getD] <;>
      (try rfl) <;>
      (split <;> try rfl) <;>
      (split <;> rfl)
  | some h =>
    by_cases hh : h = ""
    · subst hh
      cases ct <;> cases ut <;>
        simp only [getActivity.hintStep, getActivity.tsFallback, truthyStr,
          tsResolve, ne_eq, not_true_eq_false, if_false, ite_false,
          Option.orElse_none, Option.none_orElse, Option.getD] <;>
        (try rfl) <;>
        (split <;> try rfl) <;>
        (split <;> rfl)
    · simp [getActivity.hintStep, truthyStr, hh]

theorem headerStep_eq (headers : List (String × JValue))
    (hint : Option String) (ct ut : Option PyDateTime) :
    ∀ l : List (String × String),
      getActivity.headerStep headers hint ct ut l =
        ((headerResolve.go headers l).orElse fun _ =>
          ((truthyStr hint).orElse fun _ => tsResolve ct ut)).getD "any"
  | [] => by
    simp only [getActivity.headerStep, headerResolve.go, Option.none_orElse]
    exact hintStep_eq hint ct ut
  | (name, title) :: rest => by
    simp only [getActivity.headerStep, headerResolve.go]
    cases hv : pyOrJ (hGetJ headers name) (hGetJ headers title) with
    | none => exact headerStep_eq headers hint ct ut rest
    | some v =>
      cases v with
      | str s =>
        show (match normalizeActivity s with
              | some a => a
              | none => getActivity.headerStep headers hint ct ut rest) =
            ((match normalizeActivity s with
              | some a => some a
              | none => headerResolve.go headers rest).orElse
                fun _ => (truthyStr hint).orElse fun _ =>
                  tsResolve ct ut).getD "any"
        cases hn : normalizeActivity s with
        | none => exact headerStep_eq headers hint ct ut rest
        | some a => rfl
      | null => exact headerStep_eq headers hint ct ut rest
      | bool b => exact headerStep_eq headers hint ct ut rest
      | num n => exact headerStep_eq headers hint ct ut rest
      | arr items => exact headerStep_eq headers hint ct ut rest
      | obj fields => exact headerStep_eq headers hint ct ut rest
      | dt d => exact headerStep_eq headers hint ct ut rest

/-- C7: `get_activity` applies its rules in fixed priority with the
first match winning — (1) the first of the six known header names
whose value (matched case-insensitively, via lowercasing) falls in a
keyword family, then (2) the truthy inline activity hint, then (3) the
timestamp comparison where an equal update time yields `"create"` and
a strictly later one yields `"update"` — and otherwise `"any"`; being
a total function it always returns a value and never raises (the
naive/aware comparison `TypeError` is swallowed into the `"any"`
fallback).  The concrete conjuncts exercise each priority level. -/
theorem activity_resolution_priority (headers : List (String × JValue))
    (hint : Option String) (ct ut : Option PyDateTime) :
    (getActivity headers hint ct ut =
      (((headerResolve headers).orElse fun _ => truthyStr hint).orElse
        fun _ => tsResolve ct ut).getD "any") ∧
    getActivity [("x-github-event", .str "PuSH")] (some "delete")
      (some ⟨7, none⟩) (some ⟨7, none⟩) = "push" ∧
    getActivity [] (some "delete") (some ⟨7, none⟩) (some ⟨9, none⟩) =
      "delete" ∧
    getActivity [] none (some ⟨7, none⟩) (some ⟨7, none⟩) = "create" ∧
    getActivity [] none (some ⟨7, none⟩) (some ⟨9, none⟩) = "update" ∧
    getActivity [] none (some ⟨9, none⟩) (some ⟨7, none⟩) = "any" ∧
    getActivity [] none (some ⟨7, none⟩) (some ⟨7, some 0⟩) = "any" ∧
    getActivity [] none none none = "any" := by
  refine ⟨?_, by decide, by decide, by decide, by decide, by decide,
    by decide, by decide⟩
  rw [getActivity, headerStep_eq headers hint ct ut knownHeaderNames,
    headerResolve]
  cases headerResolve.go headers knownHeaderNames <;> rfl

/-! ## C9: prefilter soundness — supporting lemmas -/

theorem jGet_jSet_ne :
    ∀ (fields : List (String × JValue)) (k k' : String) (v : JValue),
      k ≠ k' → jGet (jSet fields k v) k' = jGet fields k'
  | [], k, k', v, h => by
    simp only [jSet, jGet]
    rw [if_neg (fun he => h he)]
  | (k0, v0) :: rest, k, k', v, h => by
    simp only [jSet]
    by_cases h0 : k0 = k
    · rw [if_pos h0]
      simp only [jGet]
      rw [if_neg (h0 ▸ fun he => h he), if_neg (h0 ▸ fun he => h he)]
    · rw [if_neg h0]
      simp only [jGet]
      by_cases h1 : k0 = k'
      · rw [if_pos h1, if_pos h1]
      · rw [if_neg h1, if_neg h1]
        exact jGet_jSet_ne rest k k' v h

theorem jGet_jSet_self :
    ∀ (fields : List (String × JValue)) (k : String) (v : JValue),
      jGet (jSet fields k v) k = some v
  | [], k, v => by simp [jSet, jGet]
  | (k0, v0) :: rest, k, v => by
    simp only [jSet]
    by_cases h0 : k0 = k
    · rw [if_pos h0]
      simp [jGet, h0]
    · rw [if_neg h0]
      simp only [jGet]
      rw [if_neg h0]
      exact jGet_jSet_self rest k v

theorem jGet_coerceTimeField_ne (tz : Int) (d : List (String × JValue))
    (key snake k : String) (h : snake ≠ k) :
    jGet (coerceTimeField tz d key snake) k = jGet d k := by
  unfold coerceTimeField
  cases jGet d key with
  | none => rfl
  | some v =>
    show jGet (match parseDt tz v with
      | some p => jSet d snake (.dt p)
      | none => d) k = jGet d k
    cases parseDt tz v with
    | none => rfl
    | some p => exact jGet_jSet_ne d snake k _ h

theorem jGet_coerceDisplayField_ne (tz : Int) (d : List (String × JValue))
    (key snake k : String) (h : snake ≠ k) :
    jGet (coerceDisplayField tz d key snake) k = jGet d k := by
  unfold coerceDisplayField
  cases jGet d key with
  | none => rfl
  | some v =>
    show jGet (match parseDt tz v with
      | some p => jSet d snake (.str (pyIsoFormat p))
      | none => d) k = jGet d k
    cases parseDt tz v with
    | none => rfl
    | some p => exact jGet_jSet_ne d snake k _ h

theorem jGet_coerceEnumField_ne (d : List (String × JValue))
    (key k : String) (mapping : Int → Option String) (h : key ≠ k) :
    jGet (coerceEnumField d key mapping) k = jGet d k := by
  unfold coerceEnumField
  cases hv : jGet d key with
  | none => rfl
  | some v =>
    cases v with
    | num n =>
      show jGet (match mapping n with
        | some s => jSet d key (.str s)
        | none => d) k = jGet d k
      cases mapping n with
      | none => rfl
      | some s => exact jGet_jSet_ne d key k _ h
    | bool b =>
      show jGet (match mapping (if b then 1 else 0) with
        | some s => jSet d key (.str s)
        | none => d) k = jGet d k
      cases mapping (if b then 1 else 0) with
      | none => rfl
      | some s => exact jGet_jSet_ne d key k _ h
    | null => rfl
    | str s => rfl
    | arr items => rfl
    | obj fields => rfl
    | dt dd => rfl

/-- Keys other than the ones the coercion writes are preserved. -/
theorem jGet_coerceNonNodes_ne (tz : Int)
    (m : List (String × JValue)) (k : String)
    (h1 : k ≠ "create_time") (h2 : k ≠ "update_time")
    (h3 : k ≠ "display_time") (h4 : k ≠ "state")
    (h5 : k ≠ "visibility") :
    jGet (coerceNonNodes tz m) k = jGet m k := by
  unfold coerceNonNodes
  rw [jGet_coerceEnumField_ne _ _ _ _ (fun he => h5 he.symm),
    jGet_coerceEnumField_ne _ _ _ _ (fun he => h4 he.symm),
    jGet_coerceDisplayField_ne _ _ _ _ _ (fun he => h3 he.symm),
    jGet_coerceDisplayField_ne _ _ _ _ _ (fun he => h3 he.symm),
    jGet_coerceTimeField_ne _ _ _ _ _ (fun he => h2 he.symm),
    jGet_coerceTimeField_ne _ _ _ _ _ (fun he => h2 he.symm),
    jGet_coerceTimeField_ne _ _ _ _ _ (fun he => h1 he.symm),
    jGet_coerceTimeField_ne _ _ _ _ _ (fun he => h1 he.symm)]

theorem jGet_coerceWebhookFormats_ne (tz : Int)
    (m : List (String × JValue)) (k : String)
    (h1 : k ≠ "create_time") (h2 : k ≠ "update_time")
    (h3 : k ≠ "display_time") (h4 : k ≠ "state")
    (h5 : k ≠ "visibility") (h6 : k ≠ "nodes") :
    jGet (coerceWebhookFormats tz m) k = jGet m k := by
  unfold coerceWebhookFormats
  have e8 := jGet_coerceNonNodes_ne tz m k h1 h2 h3 h4 h5
  cases hn : jGet (coerceNonNodes tz m) "nodes" with
  | none => exact e8
  | some v =>
    cases v with
    | arr items =>
      show jGet (jSet (coerceNonNodes tz m) "nodes"
        (.arr (items.map coerceNode))) k = jGet m k
      rw [jGet_jSet_ne _ _ _ _ (fun he => h6 he.symm)]
      exact e8
    | null => exact e8
    | bool b => exact e8
    | num n => exact e8
    | str s => exact e8
    | obj fields => exact e8
    | dt dd => exact e8

/-- The coercion rewrites exactly the `nodes` value, by `coerceNodes`. -/
theorem jGet_coerceWebhookFormats_nodes (tz : Int)
    (m : List (String × JValue)) :
    jGet (coerceWebhookFormats tz m) "nodes" =
      (jGet m "nodes").map coerceNodes := by
  unfold coerceWebhookFormats
  have e8 : jGet (coerceNonNodes tz m) "nodes" = jGet m "nodes" := by
    apply jGet_coerceNonNodes_ne <;> decide
  cases hn : jGet (coerceNonNodes tz m) "nodes" with
  | none =>
    show jGet (coerceNonNodes tz m) "nodes" =
      (jGet m "nodes").map coerceNodes
    rw [hn, (e8 ▸ hn : jGet m "nodes" = none)]
    rfl
  | some v =>
    have hm : jGet m "nodes" = some v := e8 ▸ hn
    cases v with
    | arr items =>
      show jGet (jSet (coerceNonNodes tz m) "nodes"
          (.arr (items.map coerceNode))) "nodes" =
        (jGet m "nodes").map coerceNodes
      rw [jGet_jSet_self, hm]
      rfl
    | null =>
      show jGet (coerceNonNodes tz m) "nodes" =
        (jGet m "nodes").map coerceNodes
      rw [hn, hm]; rfl
    | bool b =>
      show jGet (coerceNonNodes tz m) "nodes" =
        (jGet m "nodes").map coerceNodes
      rw [hn, hm]; rfl
    | num n =>
      show jGet (coerceNonNodes tz m) "nodes" =
        (jGet m "nodes").map coerceNodes
      rw [hn, hm]; rfl
    | str s =>
      show jGet (coerceNonNodes tz m) "nodes" =
        (jGet m "nodes").map coerceNodes
      rw [hn, hm]; rfl
    | obj fields =>
      show jGet (coerceNonNodes tz m) "nodes" =
        (jGet m "nodes").map coerceNodes
      rw [hn, hm]; rfl
    | dt dd =>
      show jGet (coerceNonNodes tz m) "nodes" =
        (jGet m "nodes").map coerceNodes
      rw [hn, hm]; rfl

theorem extractTagsDirect_jSet_type (fields : List (String × JValue))
    (v : JValue) :
    extractTagsJ.extractTagsDirect (jSet fields "type" v) =
      extractTagsJ.extractTagsDirect fields := by
  unfold extractTagsJ.extractTagsDirect
  rw [jGet_jSet_ne _ _ _ _ (by decide), jGet_jSet_ne _ _ _ _ (by decide)]

theorem extractTagsFields_jSet_type :
    ∀ (fields : List (String × JValue)) (n : Int) (s : String),
      jGet fields "type" = some (.num n) →
      extractTagsJ.extractTagsFields (jSet fields "type" (.str s)) =
        extractTagsJ.extractTagsFields fields
  | [], n, s, h => by simp [jGet] at h
  | (k0, v0) :: rest, n, s, h => by
    simp only [jSet]
    by_cases h0 : k0 = "type"
    · rw [if_pos h0]
      have hv : v0 = .num n := by
        simp only [jGet, if_pos h0, Option.some.injEq] at h
        exact h
      subst hv
      rfl
    · rw [if_neg h0]
      have h' : jGet rest "type" = some (.num n) := by
        simpa [jGet, h0] using h
      show extractTagsJ v0 ++ _ = extractTagsJ v0 ++ _
      rw [extractTagsFields_jSet_type rest n s h']

theorem extractTagsJ_coerceNode (x : JValue) :
    extractTagsJ (coerceNode x) = extractTagsJ x := by
  cases x with
  | obj fields =>
    show extractTagsJ (.obj (coerceNodeType fields)) =
      extractTagsJ (.obj fields)
    unfold coerceNodeType
    cases ht : jGet fields "type" with
    | none => rfl
    | some v =>
      cases v with
      | num n =>
        show extractTagsJ (.obj (jSet fields "type"
          (.str ((nodeTypeName n).getD ("UNKNOWN_" ++ toString n))))) =
          extractTagsJ (.obj fields)
        have hform : ∀ l : List (String × JValue), extractTagsJ (.obj l) =
            extractTagsJ.extractTagsDirect l ++
            extractTagsJ.extractTagsFields l := fun _ => rfl
        rw [hform, hform, extractTagsDirect_jSet_type,
          extractTagsFields_jSet_type fields n _ ht]
      | null => rfl
      | bool b => rfl
      | str s => rfl
      | arr items => rfl
      | obj fs => rfl
      | dt dd => rfl
  | null => rfl
  | bool b => rfl
  | num n => rfl
  | str s => rfl
  | arr items => rfl
  | dt dd => rfl

theorem extractTagsItems_map_coerceNode :
    ∀ items : List JValue,
      extractTagsJ.extractTagsItems (items.map coerceNode) =
        extractTagsJ.extractTagsItems items
  | [] => rfl
  | x :: rest => by
    show extractTagsJ (coerceNode x) ++ _ = extractTagsJ x ++ _
    rw [extractTagsJ_coerceNode, extractTagsItems_map_coerceNode rest]

/-- Node-type coercion never changes the extracted tag list. -/
theorem extractTagsJ_coerceNodes (v : JValue) :
    extractTagsJ (coerceNodes v) = extractTagsJ v := by
  cases v with
  | arr items => exact extractTagsItems_map_coerceNode items
  | null => rfl
  | bool b => rfl
  | num n => rfl
  | str s => rfl
  | obj fields => rfl
  | dt dd => rfl

/-- `coerceNodes` preserves nullness. -/
theorem coerceNodes_eq_null_iff (v : JValue) :
    coerceNodes v = .null ↔ v = .null := by
  cases v with
  | arr items => simp [coerceNodes]
  | null => simp [coerceNodes]
  | bool b => simp [coerceNodes]
  | num n => simp [coerceNodes]
  | str s => simp [coerceNodes]
  | obj fields => simp [coerceNodes]
  | dt dd => simp [coerceNodes]

theorem filterMap_allStrings :
    ∀ (l : List JValue) (ts : List String), allStrings l = some ts →
      (l.filterMap fun v => match v with
        | JValue.str s => some (normTag s)
        | _ => none) = ts.map normTag := by
  intro l
  induction l with
  | nil =>
    intro ts h
    have : ts = [] := (Option.some.inj h).symm
    subst this
    rfl
  | cons x rest ih =>
    intro ts h
    cases x with
    | str s =>
      cases hr : allStrings rest with
      | none =>
        exfalso
        have : allStrings (JValue.str s :: rest) = none := by
          show (allStrings rest).map (s :: ·) = none
          rw [hr]; rfl
        rw [this] at h
        exact Option.noConfusion h
      | some ts' =>
        have hts : ts = s :: ts' := by
          have : allStrings (JValue.str s :: rest) = some (s :: ts') := by
            show (allStrings rest).map (s :: ·) = some (s :: ts')
            rw [hr]; rfl
          rw [this] at h
          exact (Option.some.inj h).symm
        subst hts
        show normTag s :: _ = normTag s :: ts'.map normTag
        rw [ih ts' hr]
    | null => exact Option.noConfusion h
    | bool b => exact Option.noConfusion h
    | num n => exact Option.noConfusion h
    | arr items => exact Option.noConfusion h
    | obj fields => exact Option.noConfusion h
    | dt dd => exact Option.noConfusion h

theorem memoFinish_spec (fields : List (String × JValue))
    (name : Option String) (content : String) (memo : PyMemo)
    (h : memoValidate.memoFinish fields name content = some memo) :
    memo.content = content ∧
    memoValidate.memoTags fields = some memo.tags ∧
    memo.nodes = memoValidate.memoNodes fields := by
  unfold memoValidate.memoFinish at h
  cases h1 : memoValidate.memoTags fields with
  | none =>
    rw [h1] at h
    exact Option.noConfusion h
  | some tags =>
    rw [h1] at h
    cases h2 : optDtField fields "create_time" "createTime" with
    | none =>
      rw [h2] at h
      exact Option.noConfusion h
    | some ct =>
      rw [h2] at h
      cases h3 : optDtField fields "update_time" "updateTime" with
      | none =>
        rw [h3] at h
        exact Option.noConfusion h
      | some ut =>
        rw [h3] at h
        obtain rfl := Option.some.inj h
        exact ⟨rfl, rfl, rfl⟩

theorem memoTags_coerce (tz : Int) (m : List (String × JValue)) :
    memoValidate.memoTags (coerceWebhookFormats tz m) =
      memoValidate.memoTags m := by
  unfold memoValidate.memoTags
  rw [jGet_coerceWebhookFormats_ne tz m "tags" (by decide) (by decide)
    (by decide) (by decide) (by decide) (by decide)]

theorem memoNodes_coerce (tz : Int) (m : List (String × JValue)) :
    memoValidate.memoNodes (coerceWebhookFormats tz m) =
      (match jGet m "nodes" with
       | none => none
       | some .null => none
       | some v => some (coerceNodes v)) := by
  unfold memoValidate.memoNodes
  rw [jGet_coerceWebhookFormats_nodes]
  cases hv : jGet m "nodes" with
  | none => rfl
  | some v =>
    cases v with
    | null => rfl
    | bool b => rfl
    | num n => rfl
    | str s => rfl
    | arr items => rfl
    | obj fs => rfl
    | dt dd => rfl

/-- A successful `Memo` validation with a string `content` member
yields that content, the original dict's tags, and the coerced nodes. -/
theorem memoValidate_content (tz : Int) (m : List (String × JValue))
    (memo : PyMemo) (cs : String)
    (hc : jGet m "content" = some (.str cs))
    (h : memoValidate tz (.obj m) = some memo) :
    memo.content = cs ∧
    memoValidate.memoTags m = some memo.tags ∧
    memo.nodes = (match jGet m "nodes" with
      | none => none
      | some .null => none
      | some v => some (coerceNodes v)) := by
  have h' : (match optStrField (coerceWebhookFormats tz m) "name" with
      | none => none
      | some name =>
        match jGet (coerceWebhookFormats tz m) "content" with
        | some (.str s) =>
          memoValidate.memoFinish (coerceWebhookFormats tz m) name s
        | none => memoValidate.memoFinish (coerceWebhookFormats tz m) name ""
        | some _ => none) = some memo := h
  clear h
  cases hname : optStrField (coerceWebhookFormats tz m) "name" with
  | none =>
    rw [hname] at h'
    exact Option.noConfusion h'
  | some name =>
    rw [hname] at h'
    have hc' : jGet (coerceWebhookFormats tz m) "content" =
        some (.str cs) := by
      rw [jGet_coerceWebhookFormats_ne tz m "content" (by decide) (by decide)
        (by decide) (by decide) (by decide) (by decide)]
      exact hc
    rw [hc'] at h'
    have h2 : memoValidate.memoFinish (coerceWebhookFormats tz m) name cs =
        some memo := h' 
    obtain ⟨hcont, htags, hnodes⟩ := memoFinish_spec _ _ _ _ h2
    refine ⟨hcont, ?_, ?_⟩
    · rw [← memoTags_coerce tz m]
      exact htags
    · rw [hnodes, memoNodes_coerce]

theorem buildFinish_memo (memo : PyMemo) (prev : Option PyMemo)
    (userLike : Option JValue) (hint? : Option (Option String))
    (ev : PyEvent)
    (h : buildEvent.buildFinish memo prev userLike hint? = some ev) :
    ev.memo = memo := by
  unfold buildEvent.buildFinish at h
  cases hu : buildEvent.userWrap userLike with
  | none =>
    rw [hu] at h
    exact Option.noConfusion h
  | some user =>
    rw [hu] at h
    cases hh : hint? with
    | none =>
      rw [hh] at h
      exact Option.noConfusion h
    | some hint =>
      rw [hh] at h
      obtain rfl := Option.some.inj h
      rfl

/-- A successfully built event from a payload whose `memo` key holds a
truthy dict validates exactly that dict as its memo. -/
theorem buildEvent_memo (tz : Int) (fields m : List (String × JValue))
    (ev : PyEvent)
    (hm : jGet fields "memo" = some (.obj m))
    (ht : jTruthy (.obj m) = true)
    (hb : buildEvent tz (.obj fields) = some ev) :
    memoValidate tz (.obj m) = some ev.memo := by
  have hml : envMemoLike fields = .obj m := by
    unfold envMemoLike
    rw [hm]
    simp [firstTruthyJ, ht]
  have hb' : (match memoValidate tz (envMemoLike fields) with
      | none => none
      | some memo =>
        match envPrevLike fields with
        | some p =>
          match memoValidate tz p with
          | none => none
          | some prev =>
            buildEvent.buildFinish memo (some prev) (envUserLike fields)
              (envHint fields)
        | none =>
          buildEvent.buildFinish memo none (envUserLike fields)
            (envHint fields)) = some ev := hb
  clear hb
  rw [hml] at hb'
  cases hv : memoValidate tz (.obj m) with
  | none =>
    rw [hv] at hb'
    exact Option.noConfusion hb'
  | some memo =>
    rw [hv] at hb'
    suffices hevm : ev.memo = memo by rw [hevm]
    cases hp : envPrevLike fields with
    | none =>
      rw [hp] at hb'
      exact buildFinish_memo _ _ _ _ _ hb'
    | some p =>
      rw [hp] at hb'
      have hb2 : (match memoValidate tz p with
          | none => none
          | some prev =>
            buildEvent.buildFinish memo (some prev) (envUserLike fields)
              (envHint fields)) = some ev := hb'
      cases hpv : memoValidate tz p with
      | none =>
        rw [hpv] at hb2
        exact Option.noConfusion hb2
      | some prev =>
        rw [hpv] at hb2
        exact buildFinish_memo _ _ _ _ _ hb2

theorem prefilterTags_of_memo (fields m : List (String × JValue))
    (hm : jGet fields "memo" = some (.obj m)) :
    prefilterTags (.obj fields) = (prefilterMemoTags m).toFinset := by
  have h1 : resolvePath (.obj fields) ["memo"] = some (.obj m) := by
    show (match jGet fields "memo" with
          | some v => resolvePath v []
          | none => none) = some (.obj m)
    rw [hm]
    rfl
  unfold prefilterTags
  show (match (match resolvePath (.obj fields) ["memo"] with
        | some v => some v
        | none =>
          gatherRawPaths (.obj fields) [["data"], ["after"], ["payload"]]) with
      | some (.obj m) => (prefilterMemoTags m).toFinset
      | _ => (∅ : Finset String)) = (prefilterMemoTags m).toFinset
  rw [h1]

theorem prefilterContent_of_memo (fields m : List (String × JValue))
    (cs : String)
    (hm : jGet fields "memo" = some (.obj m))
    (hc : jGet m "content" = some (.str cs)) :
    prefilterContent (.obj fields) = some (.str cs) := by
  have h1 : resolvePath (.obj fields) ["memo", "content"] = some (.str cs) := by
    show (match jGet fields "memo" with
          | some v => resolvePath v ["content"]
          | none => none) = some (.str cs)
    rw [hm]
    show (match jGet m "content" with
          | some v => resolvePath v []
          | none => none) = some (.str cs)
    rw [hc]
    rfl
  unfold prefilterContent
  show (match resolvePath (.obj fields) ["memo", "content"] with
      | some v => some v
      | none => gatherRawPaths (.obj fields)
          [["data", "content"], ["after", "content"],
           ["payload", "content"], ["content"]]) = some (.str cs)
  rw [h1]

/-- Under the envelope hypotheses, the prefilter's shallow tag
candidate coincides with the validated event's normalized tag set. -/
theorem prefilter_tagset_eq (fields m : List (String × JValue))
    (ev : PyEvent)
    (hm : jGet fields "memo" = some (.obj m))
    (htags : memoValidate.memoTags m = some ev.memo.tags)
    (hnodes : ev.memo.nodes = (match jGet m "nodes" with
      | none => none
      | some .null => none
      | some v => some (coerceNodes v))) :
    prefilterTags (.obj fields) = tagsNormalized ev := by
  rw [prefilterTags_of_memo fields m hm]
  unfold tagsNormalized eventTags prefilterMemoTags
  refine congrArg List.toFinset ?_
  rw [List.map_append]
  refine congrArg₂ (· ++ ·) ?_ ?_
  · cases hjt : jGet m "tags" with
    | none =>
      have hmt : memoValidate.memoTags m = some none := by
        unfold memoValidate.memoTags
        rw [hjt]
      rw [hmt] at htags
      have hx : ev.memo.tags = none := (Option.some.inj htags).symm
      rw [hx]
      rfl
    | some v =>
      cases v with
      | null =>
        have hmt : memoValidate.memoTags m = some none := by
          unfold memoValidate.memoTags
          rw [hjt]
        rw [hmt] at htags
        have hx : ev.memo.tags = none := (Option.some.inj htags).symm
        rw [hx]
        rfl
      | arr l =>
        have hmt : memoValidate.memoTags m = (allStrings l).map some := by
          unfold memoValidate.memoTags
          rw [hjt]
        rw [hmt] at htags
        cases hall : allStrings l with
        | none =>
          rw [hall] at htags
          exact Option.noConfusion htags
        | some ts =>
          rw [hall] at htags
          have hx : ev.memo.tags = some ts := by
            have : (some ts : Option (List String)) = ev.memo.tags :=
              Option.some.inj htags
            exact this.symm
          rw [hx]
          show (l.filterMap fun v => match v with
            | JValue.str s => some (normTag s)
            | _ => none) = ts.map normTag
          exact filterMap_allStrings l ts hall
      | bool b =>
        have hmt : memoValidate.memoTags m = none := by
          unfold memoValidate.memoTags
          rw [hjt]
        rw [hmt] at htags
        exact Option.noConfusion htags
      | num n =>
        have hmt : memoValidate.memoTags m = none := by
          unfold memoValidate.memoTags
          rw [hjt]
        rw [hmt] at htags
        exact Option.noConfusion htags
      | str s =>
        have hmt : memoValidate.memoTags m = none := by
          unfold memoValidate.memoTags
          rw [hjt]
        rw [hmt] at htags
        exact Option.noConfusion htags
      | obj fs =>
        have hmt : memoValidate.memoTags m = none := by
          unfold memoValidate.memoTags
          rw [hjt]
        rw [hmt] at htags
        exact Option.noConfusion htags
      | dt dd =>
        have hmt : memoValidate.memoTags m = none := by
          unfold memoValidate.memoTags
          rw [hjt]
        rw [hmt] at htags
        exact Option.noConfusion htags
  · cases hjn : jGet m "nodes" with
    | none =>
      rw [hjn] at hnodes
      have hx : ev.memo.nodes = none := hnodes
      rw [hx]
      rfl
    | some v =>
      rw [hjn] at hnodes
      cases v with
      | null =>
        have hx : ev.memo.nodes = none := hnodes
        rw [hx]
        rfl
      | arr items =>
        have hx : ev.memo.nodes = some (coerceNodes (.arr items)) := hnodes
        rw [hx]
        show (extractTagsJ (JValue.arr items)).map normTag =
          (extractTagsJ (coerceNodes (.arr items))).map normTag
        rw [extractTagsJ_coerceNodes]
      | bool b =>
        have hx : ev.memo.nodes = some (coerceNodes (.bool b)) := hnodes
        rw [hx]
        show (extractTagsJ (JValue.bool b)).map normTag =
          (extractTagsJ (coerceNodes (.bool b))).map normTag
        rw [extractTagsJ_coerceNodes]
      | num n =>
        have hx : ev.memo.nodes = some (coerceNodes (.num n)) := hnodes
        rw [hx]
        show (extractTagsJ (JValue.num n)).map normTag =
          (extractTagsJ (coerceNodes (.num n))).map normTag
        rw [extractTagsJ_coerceNodes]
      | str s =>
        have hx : ev.memo.nodes = some (coerceNodes (.str s)) := hnodes
        rw [hx]
        show (extractTagsJ (JValue.str s)).map normTag =
          (extractTagsJ (coerceNodes (.str s))).map normTag
        rw [extractTagsJ_coerceNodes]
      | obj fs =>
        have hx : ev.memo.nodes = some (coerceNodes (.obj fs)) := hnodes
        rw [hx]
        show (extractTagsJ (JValue.obj fs)).map normTag =
          (extractTagsJ (coerceNodes (.obj fs))).map normTag
        rw [extractTagsJ_coerceNodes]
      | dt dd =>
        have hx : ev.memo.nodes = some (coerceNodes (.dt dd)) := hnodes
        rw [hx]
        show (extractTagsJ (JValue.dt dd)).map normTag =
          (extractTagsJ (coerceNodes (.dt dd))).map normTag
        rw [extractTagsJ_coerceNodes]

/-- C9 counterexample: for the event type declaring
`any_tags={"cli"}` and the bare payload
`{"content": "x", "tags": ["cli"]}` (no envelope key), the full
phase-2 evaluation accepts — `_coerce_envelopes` falls back to
treating the whole payload as the memo — but the cheap prefilter
probes only the `memo`/`data`/`after`/`payload` keys for tags, finds
none, and rejects; `matches` therefore returns false even though
phase 2 would accept, refuting the claim that the prefilter never
changes the outcome. -/
theorem prefilter_rejects_bare_memo_payload :
    matchesPhase2 0 specCli rawBare = true ∧
    cheapPrefilter (lowerSet specCli.any_tags) (lowerSet specCli.all_tags)
      (effContains specCli.content_contains) specCli.regex rawBare = false ∧
    matchesEvent 0 specCli rawBare = false := by
  refine ⟨by decide, by decide, by decide⟩

/-- C9 amended: the cheap prefilter is a pure optimization on
enveloped payloads — for every payload whose `memo` key holds a truthy
(nonempty) dict with a string `content` member, whenever the full
phase-2 evaluation (model validation plus declarative checks) accepts,
the prefilter accepts as well, so `matches` agrees with phase 2
there.  For payloads with no envelope key (where phase 2 treats the
whole payload as the memo object), the prefilter can reject
tag-predicated types that phase 2 would accept. -/
theorem prefilter_sound_for_enveloped_payloads
    (tz : Int) (spec : EventSpec) (fields m : List (String × JValue))
    (cs : String)
    (hm : jGet fields "memo" = some (.obj m))
    (htr : jTruthy (.obj m) = true)
    (hc : jGet m "content" = some (.str cs))
    (h2 : matchesPhase2 tz spec (.obj fields) = true) :
    cheapPrefilter (lowerSet spec.any_tags) (lowerSet spec.all_tags)
      (effContains spec.content_contains) spec.regex (.obj fields) = true ∧
    matchesEvent tz spec (.obj fields) =
      matchesPhase2 tz spec (.obj fields) := by
  have main : cheapPrefilter (lowerSet spec.any_tags)
      (lowerSet spec.all_tags) (effContains spec.content_contains)
      spec.regex (.obj fields) = true := by
    unfold matchesPhase2 at h2
    cases hb : buildEvent tz (.obj fields) with
    | none =>
      rw [hb] at h2
      exact absurd h2 (by simp)
    | some ev =>
      rw [hb] at h2
      have hmv := buildEvent_memo tz fields m ev hm htr hb
      obtain ⟨hcont, htags, hnodes⟩ :=
        memoValidate_content tz m ev.memo cs hc hmv
      have htagset : prefilterTags (.obj fields) = tagsNormalized ev :=
        prefilter_tagset_eq fields m ev hm htags hnodes
      have hcontval : prefilterContent (.obj fields) = some (.str cs) :=
        prefilterContent_of_memo fields m cs hm hc
      simp only [declChecks, Bool.and_eq_true] at h2
      obtain ⟨⟨⟨hAnyOk, hAllOk⟩, hContOk⟩, hRegOk⟩ := h2
      unfold cheapPrefilter
      by_cases hg : lowerSet spec.any_tags = ∅ ∧ lowerSet spec.all_tags = ∅ ∧
          effContains spec.content_contains = none ∧
          (spec.regex).isNone = true
      · rw [if_pos hg]
      · rw [if_neg hg]
        simp only [Bool.and_eq_true]
        refine ⟨⟨?_, ?_⟩, ?_⟩
        · cases hcc : effContains spec.content_contains with
          | none => rfl
          | some c =>
            show (match prefilterContent (.obj fields) with
                  | some (.str s) => pyContainsCI s c
                  | _ => false) = true
            rw [hcontval]
            show pyContainsCI cs c = true
            rw [hcc] at hContOk
            have hx : pyContainsCI ev.memo.content c = true := hContOk
            rwa [hcont] at hx
        · cases hr : spec.regex with
          | none => rfl
          | some r =>
            show (match prefilterContent (.obj fields) with
                  | some (.str s) => r s
                  | _ => false) = true
            rw [hcontval]
            show r cs = true
            rw [hr] at hRegOk
            have hx : r ev.memo.content = true := hRegOk
            rwa [hcont] at hx
        · by_cases hg2 : lowerSet spec.any_tags = ∅ ∧
              lowerSet spec.all_tags = ∅
          · rw [if_pos hg2]
          · rw [if_neg hg2, htagset]
            simp only [Bool.and_eq_true]
            exact ⟨hAnyOk, hAllOk⟩
  refine ⟨main, ?_⟩
  rw [matchesEvent, if_pos main]

/-- Witness for the amended C9 at concrete inputs: with
`any_tags={"cli"}` and the enveloped payload
`{"memo": {"content": "x", "tags": ["cli"]}}`, phase 2 accepts and the
prefilter accepts too, and `matches` equals phase 2. -/
theorem prefilter_sound_witness :
    cheapPrefilter (lowerSet specCli.any_tags) (lowerSet specCli.all_tags)
      (effContains specCli.content_contains) specCli.regex rawEnveloped =
      true ∧
    matchesEvent 0 specCli rawEnveloped =
      matchesPhase2 0 specCli rawEnveloped := by
  have h := prefilter_sound_for_enveloped_payloads 0 specCli envFieldsEx
    memoFieldsEx "x" (by rfl) (by decide) (by rfl) (by decide)
  exact h
